import Mathlib

/-!
Verification of the `kr/walk` iterator-style filesystem walker.

The Go source (`walk.go`) is shallowly embedded below:
* `DirEntry`, `FS` model the `io/fs` collaborator (only the two primitives
  the walker consumes: `Stat` and `ReadDir`; both may fail, and `ReadDir`
  may return partial entries together with an error).
* `Visit` embeds the `visit` struct, `Walker` the `Walker` struct.
* `New`, `Walker.Next`, `Walker.SkipDir`, `Walker.SkipParent`,
  `Walker.Path`, `Walker.Entry`, `Walker.Err` embed the exported API.

The Go slice `w.stack` appends at the end and pops at the end; we keep the
stack as a Lean list with the TOP at the HEAD, so a Go push is `::` and the
Go truncation `w.stack[:k]` (keeping the bottom `k` entries) is dropping
all but the last `k` entries.  All mark arithmetic (`len(w.stack)`) is kept
verbatim as list lengths.

Errors are modelled as `Option String` (a `some` is a non-nil Go error).
-/

namespace Walk

/-- Model of `fs.DirEntry` restricted to the capabilities the walker
consumes: `Name()` and `IsDir()`. -/
structure DirEntry where
  name : String
  isDir : Bool
deriving DecidableEq, Repr

/-- Model of the filesystem collaborator: `fs.Stat` returns an info (absent
when the Go `FileInfo` is nil) together with an optional error, and
`fs.ReadDir` returns the listed entries (possibly partial) together with an
optional error. -/
structure FS where
  stat : String → Option DirEntry × Option String
  readDir : String → List DirEntry × Option String

/-- Embeds the `visit` struct of `walk.go`:
`path`, `info fs.DirEntry`, `err error`, `skipDir int`, `skipPar int`.
`info = none` models a `DirEntry` wrapping a nil `FileInfo` (possible after
a failed root stat) as well as the zero value in the usage sentinel. -/
structure Visit where
  path : String
  info : Option DirEntry
  err : Option String
  skipDir : Nat
  skipPar : Nat
deriving DecidableEq, Repr

/-- Embeds the `Walker` struct: `fsys fs.FS; cur visit; stack []visit;
descend bool`. -/
structure Walker where
  fsys : FS
  cur : Visit
  stack : List Visit
  descend : Bool

/-- The `errUsage` error of `walk.go`. -/
def errUsage : String := "walk: method Next must be called first"

/-- `w.cur.info.IsDir()`.  In Go a nil `FileInfo` would make `IsDir` panic;
the code only evaluates it under `w.cur.err == nil`, where the `io/fs`
contract guarantees a non-nil info, so the `none` branch is unreachable in
guarded positions. -/
def visitIsDir (v : Visit) : Bool :=
  match v.info with
  | some e => e.isDir
  | none => false

/-! ### Go standard library `path.Join` / `path.Clean`

Modelled from the spec: the walker calls the Go standard library function
`path.Join` (not part of this repository); we embed its documented
semantics — drop empty elements, join with `/`, then lexically clean the
result (drop `.` and empty components, resolve `..`). -/

/-- Split a character list on `/` (components, in order). -/
def splitSlash : List Char → List (List Char)
  | [] => [[]]
  | c :: cs =>
    match splitSlash cs with
    | [] => [[c]]
    | h :: t => if c = '/' then [] :: h :: t else (c :: h) :: t

/-- One step of Go's `path.Clean` component processing. -/
def cleanStep (rooted : Bool) (acc : List (List Char)) (c : List Char) :
    List (List Char) :=
  if c = [] ∨ c = ['.'] then acc
  else if c = ['.', '.'] then
    if rooted then acc.dropLast
    else
      match acc.getLast? with
      | some l => if l = ['.', '.'] then acc ++ [c] else acc.dropLast
      | none => [c]
  else acc ++ [c]

/-- Re-join cleaned components with `/`. -/
def joinComps : List (List Char) → List Char
  | [] => []
  | [c] => c
  | c :: rest => c ++ '/' :: joinComps rest

/-- Go's `path.Clean`. -/
def clean (s : String) : String :=
  match s.data with
  | [] => "."
  | cs =>
    let rooted := cs.head? = some '/'
    let out := (splitSlash cs).foldl (cleanStep rooted) []
    match out with
    | [] => if rooted then "/" else "."
    | _ => if rooted then ⟨'/' :: joinComps out⟩ else ⟨joinComps out⟩

/-- Go's `path.Join` on two elements (the call shape used by the walker:
`path.Join(w.cur.path, dir[i].Name())`). -/
def pathJoin (a b : String) : String :=
  if a = "" then (if b = "" then "" else clean b)
  else if b = "" then clean a
  else clean (a ++ "/" ++ b)

/-! ### The walker itself -/

/-- The push loop of `Next`'s expansion, verbatim:
`for i := len(dir) - 1; i >= 0; i--` pushes
`visit{path.Join(w.cur.path, dir[i].Name()), dir[i], nil, len(w.stack), n}`.
The first argument is the entry list already reversed (iteration from the
last index down to 0). -/
def pushChildren (parent : String) (n : Nat) :
    List DirEntry → List Visit → List Visit
  | [], s => s
  | e :: rest, s =>
    pushChildren parent n rest
      (⟨pathJoin parent e.name, some e, none, s.length, n⟩ :: s)

/-- The expansion guard of `Next`:
`w.descend && w.cur.err == nil && w.cur.info.IsDir()`. -/
def expandFlag (w : Walker) : Bool :=
  w.descend && (w.cur.err = none : Bool) && visitIsDir w.cur

/-- First half of `Next`: if the previous visit is an error-free directory
still marked for descent, read it, push its children in reverse order and,
on a read error, push a second visit of the directory carrying the error
(the Go code also overwrites `w.cur.err`). -/
def expandPhase (w : Walker) : Walker :=
  if expandFlag w then
    let dr := w.fsys.readDir w.cur.path
    let n := w.stack.length
    let s1 := pushChildren w.cur.path n dr.1.reverse w.stack
    match dr.2 with
    | some e =>
      let c1 : Visit := { w.cur with err := some e }
      { w with cur := c1, stack := c1 :: s1 }
    | none => { w with stack := s1 }
  else w

/-- Second half of `Next`: report `false` on an empty stack (clearing
`descend`), otherwise pop the top of the stack into the current visit and
re-arm `descend`. -/
def popPhase (w : Walker) : Bool × Walker :=
  match w.stack with
  | [] => (false, { w with descend := false })
  | v :: rest => (true, { w with cur := v, stack := rest, descend := true })

/-- `Walker.Next` of `walk.go`: expansion phase followed by the pop phase. -/
def Walker.Next (w : Walker) : Bool × Walker :=
  popPhase (expandPhase w)

/-- The `fs.ReadDir` calls a single `Next` invocation issues (the guard is
the one of `expandPhase`; `Next` performs no other filesystem call, and
`fs.Stat` is called only by `New`). -/
def nextReads (w : Walker) : List String :=
  if expandFlag w then [w.cur.path] else []

/-- Go truncation `s[:k]` of the bottom-`k` prefix, on our top-first list:
drop everything above the bottom `k` entries.  (In the Go code `k` never
exceeds the stack length when reached through the public API; see the mark
invariant proved below.) -/
def stackTrunc (s : List Visit) (k : Nat) : List Visit :=
  s.drop (s.length - k)

/-- `Walker.SkipDir`: disarm descent and truncate the stack to the current
visit's `skipDir` mark. -/
def Walker.SkipDir (w : Walker) : Walker :=
  { w with descend := false, stack := stackTrunc w.stack w.cur.skipDir }

/-- `Walker.SkipParent`: disarm descent and truncate the stack to the
current visit's `skipPar` mark. -/
def Walker.SkipParent (w : Walker) : Walker :=
  { w with descend := false, stack := stackTrunc w.stack w.cur.skipPar }

/-- `New` of `walk.go`: stat the root, seed the stack with the root visit
(the stat error, if any, deferred into that visit), and set the current
visit to the usage sentinel. -/
def New (fsys : FS) (root : String) : Walker :=
  let sr := fsys.stat root
  { fsys := fsys
    cur := ⟨"", none, some errUsage, 0, 0⟩
    stack := [⟨root, sr.1, sr.2, 0, 0⟩]
    descend := false }

/-- `Walker.Path` accessor. -/
def Walker.Path (w : Walker) : String := w.cur.path

/-- `Walker.Entry` accessor. -/
def Walker.Entry (w : Walker) : Option DirEntry := w.cur.info

/-- `Walker.Err` accessor. -/
def Walker.Err (w : Walker) : Option String := w.cur.err

/-! ### Consumer harness

A consumer repeatedly calls `Next` until it returns `false`; after each
successful call it may inspect `Path`/`Entry`/`Err` and call one of the two
pruning methods.  We model the consumer as a policy deciding, from the
observable state of the current visit, which pruning method (if any) to
invoke before the next `Next` call.  The runs are fuelled; any fuel
exceeding the number of produced visits yields the full traversal. -/

/-- A consumer decision after one visit. -/
inductive Prune
  | keep
  | skipDir
  | skipParent
deriving DecidableEq, Repr

/-- A consumer: decides from `Path()`, `Entry()`, `Err()` of the current
visit. -/
def Policy := String → Option DirEntry → Option String → Prune

/-- The policy that never prunes. -/
def keepAll : Policy := fun _ _ _ => Prune.keep

/-- Apply a consumer decision to the walker. -/
def applyPrune (w : Walker) : Prune → Walker
  | Prune.keep => w
  | Prune.skipDir => w.SkipDir
  | Prune.skipParent => w.SkipParent

/-- One consumer step after a successful `Next`. -/
def consume (pol : Policy) (w : Walker) : Walker :=
  applyPrune w (pol w.Path w.Entry w.Err)

/-- The visits produced by repeatedly calling `Next` (at most `fuel`
times), applying the policy after each visit. -/
def runP (pol : Policy) : Nat → Walker → List Visit
  | 0, _ => []
  | fuel + 1, w =>
    match Walker.Next w with
    | (false, _) => []
    | (true, w') => w'.cur :: runP pol fuel (consume pol w')

/-- The `fs.ReadDir` calls issued by the same run (a call to `Next` that
returns `false` may still have performed a final read). -/
def readsP (pol : Policy) : Nat → Walker → List String
  | 0, _ => []
  | fuel + 1, w =>
    nextReads w ++
      match Walker.Next w with
      | (false, _) => []
      | (true, w') => readsP pol fuel (consume pol w')

/-- The observable part of an emitted visit: `(Path(), Err())`. -/
def obs (v : Visit) : String × Option String := (v.path, v.err)

/-- Iterate `Next` (keeping only the walker), for the sticky-termination
claims. -/
def nextIter : Nat → Walker → Walker
  | 0, w => w
  | n + 1, w => nextIter n (Walker.Next w).2

/-! ### Filesystem trees

A reference model of a finite filesystem tree: a node is either a plain
file or a directory whose listing yields named children in listing order
and, optionally, also fails with an error (a partial listing).  An `FS`
collaborator *represents* such a tree at a path when `ReadDir` answers
every directory node of the tree accordingly. -/

inductive FTree
  | file : FTree
  | dir : Option String → List (String × FTree) → FTree

/-- Whether a tree node is a directory. -/
def isDirB : FTree → Bool
  | FTree.file => false
  | FTree.dir _ _ => true

/-- The `DirEntry` a directory listing reports for a named child. -/
def entryOf (nc : String × FTree) : DirEntry :=
  ⟨nc.1, isDirB nc.2⟩

/-- `fsys` represents the tree `t` at path `p`: every directory node's
listing returns exactly its children's entries (in listing order) together
with the node's listing error. -/
inductive Represents (fsys : FS) : String → FTree → Prop
  | file (p : String) : Represents fsys p FTree.file
  | dir (p : String) (lerr : Option String) (cs : List (String × FTree)) :
      fsys.readDir p = (cs.map entryOf, lerr) →
      (∀ nc ∈ cs, Represents fsys (pathJoin p nc.1) nc.2) →
      Represents fsys p (FTree.dir lerr cs)

mutual
/-- Number of visits a full (unpruned) traversal of the tree emits:
one per node, plus one extra for each directory whose listing fails. -/
def tsize : FTree → Nat
  | FTree.file => 1
  | FTree.dir lerr cs =>
    1 + (match lerr with | some _ => 1 | none => 0) + tsizeList cs
/-- Sum of `tsize` over a children list. -/
def tsizeList : List (String × FTree) → Nat
  | [] => 0
  | nc :: rest => tsize nc.2 + tsizeList rest
end

/-! ### Reference denotation of a policy-driven traversal

`dwalk pol ent p t` computes, directly by recursion on the tree, the
visits `(path, err)` a consumer driven by `pol` observes for the subtree
`t` at path `p` (whose own directory entry is `ent`), the `ReadDir` calls
issued for it, and whether a `skipParent` pruning escaped from this subtree
(which additionally aborts the not-yet-visited later siblings at the
parent's level — and only there). -/

/-- Output of the reference traversal of one subtree. -/
structure DOut where
  vs : List (String × Option String)
  rds : List String
  ab : Bool
deriving DecidableEq, Repr

mutual
/-- Reference traversal of one subtree (see section comment). -/
def dwalk (pol : Policy) (ent : Option DirEntry) (p : String) :
    FTree → DOut
  | FTree.file =>
    ⟨[(p, none)], [], pol p ent none = Prune.skipParent⟩
  | FTree.dir lerr cs =>
    match pol p ent none with
    | Prune.skipDir => ⟨[(p, none)], [], false⟩
    | Prune.skipParent => ⟨[(p, none)], [], true⟩
    | Prune.keep =>
      match lerr with
      | none =>
        let r := dlist pol p cs
        ⟨(p, none) :: r.vs, p :: r.rds, false⟩
      | some e =>
        match pol p ent (some e) with
        | Prune.skipDir => ⟨[(p, none), (p, some e)], [p], false⟩
        | Prune.skipParent => ⟨[(p, none), (p, some e)], [p], true⟩
        | Prune.keep =>
          let r := dlist pol p cs
          ⟨(p, none) :: (p, some e) :: r.vs, p :: r.rds, false⟩
/-- Reference traversal of a children list in listing order; a child from
which a `skipParent` escapes aborts the remaining entries of this list. -/
def dlist (pol : Policy) (p : String) : List (String × FTree) → DOut
  | [] => ⟨[], [], false⟩
  | nc :: rest =>
    let r := dwalk pol (some (entryOf nc)) (pathJoin p nc.1) nc.2
    if r.ab then ⟨r.vs, r.rds, false⟩
    else
      let r2 := dlist pol p rest
      ⟨r.vs ++ r2.vs, r.rds ++ r2.rds, false⟩
end

mutual
/-- The pre-order path listing of a tree (sibling order = listing order;
with lexically sorted listings this is the lexical pre-order). -/
def preorder (p : String) : FTree → List String
  | FTree.file => [p]
  | FTree.dir _ cs => p :: preorderList p cs
/-- Pre-order listing of a children list. -/
def preorderList (p : String) : List (String × FTree) → List String
  | [] => []
  | nc :: rest => preorder (pathJoin p nc.1) nc.2 ++ preorderList p rest
end

mutual
/-- No directory listing in the tree fails. -/
def errFree : FTree → Bool
  | FTree.file => true
  | FTree.dir lerr cs => (lerr = none : Bool) && errFreeList cs
/-- `errFree` over a children list. -/
def errFreeList : List (String × FTree) → Bool
  | [] => true
  | nc :: rest => errFree nc.2 && errFreeList rest
end

/-- Lexicographic (code-point) comparison of names, structurally. -/
def charsLt : List Char → List Char → Bool
  | [], [] => false
  | [], _ :: _ => true
  | _ :: _, [] => false
  | a :: as, b :: bs =>
    if a.toNat < b.toNat then true
    else if b.toNat < a.toNat then false
    else charsLt as bs

/-- Lexicographic order on strings. -/
def strLt (a b : String) : Bool := charsLt a.data b.data

/-- Sibling names strictly increasing (lexical listing order). -/
def sortedNames : List (String × FTree) → Bool
  | [] => true
  | [_] => true
  | a :: b :: rest => strLt a.1 b.1 && sortedNames (b :: rest)

mutual
/-- Every directory listing of the tree is lexically sorted. -/
def sortedTree : FTree → Bool
  | FTree.file => true
  | FTree.dir _ cs => sortedNames cs && sortedTreeList cs
/-- `sortedTree` over a children list. -/
def sortedTreeList : List (String × FTree) → Bool
  | [] => true
  | nc :: rest => sortedTree nc.2 && sortedTreeList rest
end

mutual
/-- All `(path, subtree)` nodes of a tree, the tree itself first. -/
def nodes (p : String) : FTree → List (String × FTree)
  | FTree.file => [(p, FTree.file)]
  | FTree.dir lerr cs => (p, FTree.dir lerr cs) :: nodesList p cs
/-- `nodes` over a children list. -/
def nodesList (p : String) : List (String × FTree) → List (String × FTree)
  | [] => []
  | nc :: rest => nodes (pathJoin p nc.1) nc.2 ++ nodesList p rest
end

/-! ### Stack shape of a mid-traversal walker

Between two `Next` calls the pending stack consists of *frames*: for each
ancestor level, the not-yet-visited later siblings at that level, deeper
levels on top.  A sibling's visit was pushed when the stack held the
(eventual) later siblings of its own group above the base of the group, so
its `skipDir` mark is the group base plus the number of its later siblings
and its `skipPar` mark is the group base. -/

/-- Frames, top-first: each is a parent path together with the pending
siblings (in listing order) at that level. -/
abbrev Frames := List (String × List (String × FTree))

/-- Total number of pending visits. -/
def flen : Frames → Nat
  | [] => 0
  | f :: fs => f.2.length + flen fs

/-- The stack segment of one frame: pending sibling visits with
`skipPar = spar` and `skipDir = b +` (number of later siblings). -/
def sibVisits (spar b : Nat) (p : String) :
    List (String × FTree) → List Visit
  | [] => []
  | nc :: rest =>
    ⟨pathJoin p nc.1, some (entryOf nc), none, b + rest.length, spar⟩ ::
      sibVisits spar b p rest

/-- The stack a frame list denotes (top-first). -/
def stackOfFrames : Frames → List Visit
  | [] => []
  | (p, sibs) :: fs => sibVisits (flen fs) (flen fs) p sibs ++ stackOfFrames fs

/-- Every pending sibling's subtree is represented by the filesystem. -/
def FramesOK (fsys : FS) (F : Frames) : Prop :=
  ∀ f ∈ F, ∀ nc ∈ f.2, Represents fsys (pathJoin f.1 nc.1) nc.2

/-- The visits and reads still to come from the pending frames (pop
order). -/
def framesFuture (pol : Policy) : Frames → List (String × Option String) × List String
  | [] => ([], [])
  | (p, sibs) :: fs =>
    let a := dlist pol p sibs
    let b := framesFuture pol fs
    (a.vs ++ b.1, a.rds ++ b.2)

/-- The visits and reads still to come when the walker is about to expand
the directory `p` (entry `ent`, listing error `lerr`, children `cs`) whose
own frame of later siblings is `(pp, sibs)` above the frames `rest`. -/
def expFuture (pol : Policy) (p : String) (ent : Option DirEntry)
    (lerr : Option String) (cs : List (String × FTree))
    (pp : String) (sibs : List (String × FTree)) (rest : Frames) :
    List (String × Option String) × List String :=
  match lerr with
  | none =>
    let a := dlist pol p cs
    let b := framesFuture pol ((pp, sibs) :: rest)
    (a.vs ++ b.1, p :: (a.rds ++ b.2))
  | some e =>
    match pol p ent (some e) with
    | Prune.keep =>
      let a := dlist pol p cs
      let b := framesFuture pol ((pp, sibs) :: rest)
      ((p, some e) :: (a.vs ++ b.1), p :: (a.rds ++ b.2))
    | Prune.skipDir =>
      let b := framesFuture pol ((pp, sibs) :: rest)
      ((p, some e) :: b.1, p :: b.2)
    | Prune.skipParent =>
      let b := framesFuture pol rest
      ((p, some e) :: b.1, p :: b.2)

/-- Quiet mid-traversal state: no expansion will happen on the next call,
and the stack is exactly the pending frames. -/
def QuietOK (fsys : FS) (w : Walker) (F : Frames) : Prop :=
  w.fsys = fsys ∧ expandFlag w = false ∧ w.stack = stackOfFrames F ∧
    FramesOK fsys F

/-- Expanding mid-traversal state: the current visit is an error-free
directory still armed for descent; its later siblings form the top frame. -/
def ExpOK (fsys : FS) (w : Walker) (p : String) (ent : Option DirEntry)
    (lerr : Option String) (cs : List (String × FTree))
    (pp : String) (sibs : List (String × FTree)) (rest : Frames) : Prop :=
  w.fsys = fsys ∧ w.descend = true ∧ w.cur.path = p ∧ w.cur.info = ent ∧
    w.cur.err = none ∧ visitIsDir w.cur = true ∧
    Represents fsys p (FTree.dir lerr cs) ∧
    w.stack = stackOfFrames ((pp, sibs) :: rest) ∧
    FramesOK fsys ((pp, sibs) :: rest) ∧
    w.cur.skipDir = flen ((pp, sibs) :: rest) ∧ w.cur.skipPar = flen rest

/-- Simulation statement for quiet states at a given fuel. -/
def QStat (pol : Policy) (fsys : FS) (fuel : Nat) : Prop :=
  ∀ w F, QuietOK fsys w F →
    (framesFuture pol F).1.length + 1 ≤ fuel →
    (runP pol fuel w).map obs = (framesFuture pol F).1 ∧
    readsP pol fuel w = (framesFuture pol F).2

/-- Simulation statement for expanding states at a given fuel. -/
def EStat (pol : Policy) (fsys : FS) (fuel : Nat) : Prop :=
  ∀ w p ent lerr cs pp sibs rest, ExpOK fsys w p ent lerr cs pp sibs rest →
    (expFuture pol p ent lerr cs pp sibs rest).1.length + 1 ≤ fuel →
    (runP pol fuel w).map obs = (expFuture pol p ent lerr cs pp sibs rest).1 ∧
    readsP pol fuel w = (expFuture pol p ent lerr cs pp sibs rest).2

/-! ### Basic lemmas about the machine -/

theorem expandPhase_flagFalse {w : Walker} (h : expandFlag w = false) :
    expandPhase w = w := by
  simp [expandPhase, h]

theorem nextReads_flagFalse {w : Walker} (h : expandFlag w = false) :
    nextReads w = [] := by
  simp [nextReads, h]

theorem nextReads_flagTrue {w : Walker} (h : expandFlag w = true) :
    nextReads w = [w.cur.path] := by
  simp [nextReads, h]

theorem expandFlag_of_err {w : Walker} {e : String}
    (h : w.cur.err = some e) : expandFlag w = false := by
  simp [expandFlag, h]

theorem expandFlag_of_notDir {w : Walker}
    (h : visitIsDir w.cur = false) : expandFlag w = false := by
  simp [expandFlag, h]

theorem expandFlag_of_notDescend {w : Walker}
    (h : w.descend = false) : expandFlag w = false := by
  simp [expandFlag, h]

theorem runP_succ (pol : Policy) (fuel : Nat) (w : Walker) :
    runP pol (fuel + 1) w =
      match Walker.Next w with
      | (false, _) => []
      | (true, w') => w'.cur :: runP pol fuel (consume pol w') := rfl

theorem readsP_succ (pol : Policy) (fuel : Nat) (w : Walker) :
    readsP pol (fuel + 1) w =
      nextReads w ++
        match Walker.Next w with
        | (false, _) => []
        | (true, w') => readsP pol fuel (consume pol w') := rfl

@[simp] theorem sibVisits_length (spar b : Nat) (p : String)
    (l : List (String × FTree)) : (sibVisits spar b p l).length = l.length := by
  induction l with
  | nil => rfl
  | cons nc rest ih => simp [sibVisits, ih]

@[simp] theorem stackOfFrames_length (F : Frames) :
    (stackOfFrames F).length = flen F := by
  induction F with
  | nil => rfl
  | cons f fs ih =>
    obtain ⟨p, sibs⟩ := f
    simp [stackOfFrames, flen, ih]

theorem sibVisits_append_single (spar b : Nat) (p : String)
    (l : List (String × FTree)) (a : String × FTree) :
    sibVisits spar b p (l ++ [a]) =
      sibVisits spar (b + 1) p l ++
        [⟨pathJoin p a.1, some (entryOf a), none, b, spar⟩] := by
  induction l with
  | nil => simp [sibVisits]
  | cons nc rest ih =>
    simp only [List.cons_append, sibVisits, ih]
    congr 2
    simp
    omega

theorem pushChildren_eq (p : String) (n : Nat) :
    ∀ (cs : List (String × FTree)) (s : List Visit),
      pushChildren p n ((cs.map entryOf).reverse) s =
        sibVisits n s.length p cs ++ s := by
  intro cs
  induction cs using List.reverseRecOn with
  | nil => intro s; simp [pushChildren, sibVisits]
  | append_singleton cs' a ih =>
    intro s
    rw [List.map_append, List.reverse_append]
    simp only [List.map_cons, List.map_nil, List.reverse_cons,
      List.reverse_nil, List.nil_append, List.singleton_append]
    show pushChildren p n ((cs'.map entryOf).reverse)
        (⟨pathJoin p (entryOf a).name, some (entryOf a), none, s.length, n⟩ :: s) = _
    rw [ih]
    rw [sibVisits_append_single]
    simp [entryOf, List.append_assoc]

@[simp] theorem flen_append (g fs : Frames) :
    flen (g ++ fs) = flen g + flen fs := by
  induction g with
  | nil => simp [flen]
  | cons f g' ih => simp [flen, ih]; omega

theorem stackOfFrames_append (g fs : Frames) :
    ∃ top : List Visit, top.length = flen g ∧
      stackOfFrames (g ++ fs) = top ++ stackOfFrames fs := by
  induction g with
  | nil => exact ⟨[], rfl, rfl⟩
  | cons f g' ih =>
    obtain ⟨p, sibs⟩ := f
    obtain ⟨top, hlen, heq⟩ := ih
    refine ⟨sibVisits (flen (g' ++ fs)) (flen (g' ++ fs)) p sibs ++ top, ?_, ?_⟩
    · simp [hlen, flen]
    · simp [stackOfFrames, heq, List.append_assoc]

theorem stackTrunc_self (s : List Visit) : stackTrunc s s.length = s := by
  simp [stackTrunc]

theorem stackTrunc_frames (g fs : Frames) :
    stackTrunc (stackOfFrames (g ++ fs)) (flen fs) = stackOfFrames fs := by
  obtain ⟨top, hlen, heq⟩ := stackOfFrames_append g fs
  rw [heq, stackTrunc]
  have h1 : (top ++ stackOfFrames fs).length = flen g + flen fs := by
    simp [hlen]
  rw [h1]
  have h2 : flen g + flen fs - flen fs = top.length := by omega
  rw [h2, List.drop_left]

theorem FramesOK_cons {fsys : FS} {f : String × List (String × FTree)}
    {fs : Frames} (h : FramesOK fsys (f :: fs)) :
    (∀ nc ∈ f.2, Represents fsys (pathJoin f.1 nc.1) nc.2) ∧ FramesOK fsys fs := by
  constructor
  · exact h f (by simp)
  · intro g hg nc hnc
    exact h g (by simp [hg]) nc hnc

theorem Represents_dir_elim {fsys : FS} {p : String} {lerr : Option String}
    {cs : List (String × FTree)} (h : Represents fsys p (FTree.dir lerr cs)) :
    fsys.readDir p = (cs.map entryOf, lerr) ∧
      ∀ nc ∈ cs, Represents fsys (pathJoin p nc.1) nc.2 := by
  cases h with
  | dir _ _ _ hrd hcs => exact ⟨hrd, hcs⟩

/-! ### The pop continuation -/

/-- The visits produced from the pop phase onwards (one `Next` call whose
expansion already happened, then `fuel` more calls). -/
def popRun (pol : Policy) (fuel : Nat) (w : Walker) : List Visit :=
  match popPhase w with
  | (false, _) => []
  | (true, w') => w'.cur :: runP pol fuel (consume pol w')

/-- The reads issued from after the pop phase onwards. -/
def popReads (pol : Policy) (fuel : Nat) (w : Walker) : List String :=
  match popPhase w with
  | (false, _) => []
  | (true, w') => readsP pol fuel (consume pol w')

theorem runP_eq_popRun (pol : Policy) (fuel : Nat) (w : Walker) :
    runP pol (fuel + 1) w = popRun pol fuel (expandPhase w) := by
  rw [runP_succ, Walker.Next]
  rcases h : popPhase (expandPhase w) with ⟨b, w'⟩
  cases b <;> simp [popRun, h]

theorem readsP_eq_popReads (pol : Policy) (fuel : Nat) (w : Walker) :
    readsP pol (fuel + 1) w = nextReads w ++ popReads pol fuel (expandPhase w) := by
  rw [readsP_succ, Walker.Next]
  rcases h : popPhase (expandPhase w) with ⟨b, w'⟩
  cases b <;> simp [popReads, h]

theorem popRun_nil {w : Walker} (pol : Policy) (fuel : Nat)
    (h : w.stack = []) : popRun pol fuel w = [] := by
  simp [popRun, popPhase, h]

theorem popReads_nil {w : Walker} (pol : Policy) (fuel : Nat)
    (h : w.stack = []) : popReads pol fuel w = [] := by
  simp [popReads, popPhase, h]

theorem popRun_cons {w : Walker} {v : Visit} {s : List Visit}
    (pol : Policy) (fuel : Nat) (h : w.stack = v :: s) :
    popRun pol fuel w =
      v :: runP pol fuel (consume pol { w with cur := v, stack := s, descend := true }) := by
  simp [popRun, popPhase, h]

theorem popReads_cons {w : Walker} {v : Visit} {s : List Visit}
    (pol : Policy) (fuel : Nat) (h : w.stack = v :: s) :
    popReads pol fuel w =
      readsP pol fuel (consume pol { w with cur := v, stack := s, descend := true }) := by
  simp [popReads, popPhase, h]

theorem FramesOK_tail_sibs {fsys : FS} {pp : String} {nc : String × FTree}
    {rest' : List (String × FTree)} {fs : Frames}
    (h : FramesOK fsys ((pp, nc :: rest') :: fs)) :
    FramesOK fsys ((pp, rest') :: fs) := by
  intro f hf nc' hnc'
  rcases List.mem_cons.mp hf with rfl | hf'
  · exact h (pp, nc :: rest') (by simp) nc' (by simp [hnc'])
  · exact h f (by simp [hf']) nc' hnc'

theorem FramesOK_head {fsys : FS} {pp : String} {nc : String × FTree}
    {rest' : List (String × FTree)} {fs : Frames}
    (h : FramesOK fsys ((pp, nc :: rest') :: fs)) :
    Represents fsys (pathJoin pp nc.1) nc.2 :=
  h (pp, nc :: rest') (by simp) nc (by simp)

/-! ### The simulation: machine run = reference denotation -/

set_option maxHeartbeats 1000000

theorem popCont (pol : Policy) (fsys : FS) (fuel : Nat)
    (hQ : QStat pol fsys fuel) (hE : EStat pol fsys fuel) :
    ∀ F (w : Walker), w.fsys = fsys → w.stack = stackOfFrames F →
      FramesOK fsys F → (framesFuture pol F).1.length ≤ fuel →
      (popRun pol fuel w).map obs = (framesFuture pol F).1 ∧
      popReads pol fuel w = (framesFuture pol F).2 := by
  intro F
  induction F with
  | nil =>
    intro w _ hstack _ _
    rw [popRun_nil pol fuel (by simp [hstack, stackOfFrames]),
      popReads_nil pol fuel (by simp [hstack, stackOfFrames])]
    simp [framesFuture]
  | cons f fs ih =>
    obtain ⟨pp, sibs⟩ := f
    cases sibs with
    | nil =>
      intro w hfs hstack hOK hfuel
      have hstack' : w.stack = stackOfFrames fs := by
        simpa [stackOfFrames, sibVisits] using hstack
      have hFF : framesFuture pol ((pp, ([] : List (String × FTree))) :: fs) =
          framesFuture pol fs := by
        simp [framesFuture, dlist]
      rw [hFF] at hfuel ⊢
      exact ih w hfs hstack' (FramesOK_cons hOK).2 hfuel
    | cons nc rest' =>
      obtain ⟨nm, c⟩ := nc
      intro w hfs hstack hOK hfuel
      have hrep := FramesOK_head hOK
      have hOK2 := FramesOK_tail_sibs hOK
      have hOKfs := (FramesOK_cons hOK).2
      have htrunc0 : stackTrunc (stackOfFrames ((pp, rest') :: fs))
          (flen fs + rest'.length) = stackOfFrames ((pp, rest') :: fs) := by
        have hlen : flen fs + rest'.length =
            (stackOfFrames ((pp, rest') :: fs)).length := by
          simp [flen]; omega
        rw [hlen, stackTrunc_self]
      have htrunc1 : stackTrunc (stackOfFrames ((pp, rest') :: fs))
          (flen fs) = stackOfFrames fs :=
        stackTrunc_frames [(pp, rest')] fs
      have hstack2 : w.stack =
          (⟨pathJoin pp nm, some (entryOf (nm, c)), none,
            flen fs + rest'.length, flen fs⟩ : Visit)
            :: stackOfFrames ((pp, rest') :: fs) := by
        rw [hstack]; simp [stackOfFrames, sibVisits]
      rw [popRun_cons pol fuel hstack2, popReads_cons pol fuel hstack2]
      cases c with
      | file =>
        cases hpr : pol (pathJoin pp nm) (some (entryOf (nm, FTree.file))) none with
        | keep =>
          have hcw : consume pol
              ({ w with
                  cur := ⟨pathJoin pp nm, some (entryOf (nm, FTree.file)), none,
                    flen fs + rest'.length, flen fs⟩,
                  stack := stackOfFrames ((pp, rest') :: fs),
                  descend := true } : Walker) =
              { w with
                  cur := ⟨pathJoin pp nm, some (entryOf (nm, FTree.file)), none,
                    flen fs + rest'.length, flen fs⟩,
                  stack := stackOfFrames ((pp, rest') :: fs),
                  descend := true } := by
            simp [consume, Walker.Path, Walker.Entry, Walker.Err, hpr, applyPrune]
          rw [hcw]
          have hqok : QuietOK fsys
              ({ w with
                  cur := ⟨pathJoin pp nm, some (entryOf (nm, FTree.file)), none,
                    flen fs + rest'.length, flen fs⟩,
                  stack := stackOfFrames ((pp, rest') :: fs),
                  descend := true } : Walker) ((pp, rest') :: fs) := by
            refine ⟨by simp [hfs], ?_, by simp, hOK2⟩
            exact expandFlag_of_notDir (by simp [visitIsDir, entryOf, isDirB])
          have hFv : (framesFuture pol ((pp, (nm, FTree.file) :: rest') :: fs)).1 =
              (pathJoin pp nm, none) :: (framesFuture pol ((pp, rest') :: fs)).1 := by
            simp [framesFuture, dlist, dwalk, hpr]
          have hFr : (framesFuture pol ((pp, (nm, FTree.file) :: rest') :: fs)).2 =
              (framesFuture pol ((pp, rest') :: fs)).2 := by
            simp [framesFuture, dlist, dwalk, hpr]
          rw [hFv] at hfuel ⊢
          rw [hFr]
          have hq := hQ _ _ hqok (by simpa using hfuel)
          exact ⟨by simp [obs, hq.1], hq.2⟩
        | skipDir =>
          have hcw : consume pol
              ({ w with
                  cur := ⟨pathJoin pp nm, some (entryOf (nm, FTree.file)), none,
                    flen fs + rest'.length, flen fs⟩,
                  stack := stackOfFrames ((pp, rest') :: fs),
                  descend := true } : Walker) =
              { w with
                  cur := ⟨pathJoin pp nm, some (entryOf (nm, FTree.file)), none,
                    flen fs + rest'.length, flen fs⟩,
                  stack := stackOfFrames ((pp, rest') :: fs),
                  descend := false } := by
            simp [consume, Walker.Path, Walker.Entry, Walker.Err, hpr, applyPrune,
              Walker.SkipDir, htrunc0]
          rw [hcw]
          have hqok : QuietOK fsys
              ({ w with
                  cur := ⟨pathJoin pp nm, some (entryOf (nm, FTree.file)), none,
                    flen fs + rest'.length, flen fs⟩,
                  stack := stackOfFrames ((pp, rest') :: fs),
                  descend := false } : Walker) ((pp, rest') :: fs) := by
            refine ⟨by simp [hfs], ?_, by simp, hOK2⟩
            exact expandFlag_of_notDescend (by simp)
          have hFv : (framesFuture pol ((pp, (nm, FTree.file) :: rest') :: fs)).1 =
              (pathJoin pp nm, none) :: (framesFuture pol ((pp, rest') :: fs)).1 := by
            simp [framesFuture, dlist, dwalk, hpr]
          have hFr : (framesFuture pol ((pp, (nm, FTree.file) :: rest') :: fs)).2 =
              (framesFuture pol ((pp, rest') :: fs)).2 := by
            simp [framesFuture, dlist, dwalk, hpr]
          rw [hFv] at hfuel ⊢
          rw [hFr]
          have hq := hQ _ _ hqok (by simpa using hfuel)
          exact ⟨by simp [obs, hq.1], hq.2⟩
        | skipParent =>
          have hcw : consume pol
              ({ w with
                  cur := ⟨pathJoin pp nm, some (entryOf (nm, FTree.file)), none,
                    flen fs + rest'.length, flen fs⟩,
                  stack := stackOfFrames ((pp, rest') :: fs),
                  descend := true } : Walker) =
              { w with
                  cur := ⟨pathJoin pp nm, some (entryOf (nm, FTree.file)), none,
                    flen fs + rest'.length, flen fs⟩,
                  stack := stackOfFrames fs,
                  descend := false } := by
            simp [consume, Walker.Path, Walker.Entry, Walker.Err, hpr, applyPrune,
              Walker.SkipParent, htrunc1]
          rw [hcw]
          have hqok : QuietOK fsys
              ({ w with
                  cur := ⟨pathJoin pp nm, some (entryOf (nm, FTree.file)), none,
                    flen fs + rest'.length, flen fs⟩,
                  stack := stackOfFrames fs,
                  descend := false } : Walker) fs := by
            refine ⟨by simp [hfs], ?_, by simp, hOKfs⟩
            exact expandFlag_of_notDescend (by simp)
          have hFv : (framesFuture pol ((pp, (nm, FTree.file) :: rest') :: fs)).1 =
              (pathJoin pp nm, none) :: (framesFuture pol fs).1 := by
            simp [framesFuture, dlist, dwalk, hpr]
          have hFr : (framesFuture pol ((pp, (nm, FTree.file) :: rest') :: fs)).2 =
              (framesFuture pol fs).2 := by
            simp [framesFuture, dlist, dwalk, hpr]
          rw [hFv] at hfuel ⊢
          rw [hFr]
          have hq := hQ _ _ hqok (by simpa using hfuel)
          exact ⟨by simp [obs, hq.1], hq.2⟩
      | dir lerr cs =>
        cases hpr : pol (pathJoin pp nm) (some (entryOf (nm, FTree.dir lerr cs))) none with
        | keep =>
          have hcw : consume pol
              ({ w with
                  cur := ⟨pathJoin pp nm, some (entryOf (nm, FTree.dir lerr cs)), none,
                    flen fs + rest'.length, flen fs⟩,
                  stack := stackOfFrames ((pp, rest') :: fs),
                  descend := true } : Walker) =
              { w with
                  cur := ⟨pathJoin pp nm, some (entryOf (nm, FTree.dir lerr cs)), none,
                    flen fs + rest'.length, flen fs⟩,
                  stack := stackOfFrames ((pp, rest') :: fs),
                  descend := true } := by
            simp [consume, Walker.Path, Walker.Entry, Walker.Err, hpr, applyPrune]
          rw [hcw]
          have hexp : ExpOK fsys
              ({ w with
                  cur := ⟨pathJoin pp nm, some (entryOf (nm, FTree.dir lerr cs)), none,
                    flen fs + rest'.length, flen fs⟩,
                  stack := stackOfFrames ((pp, rest') :: fs),
                  descend := true } : Walker)
              (pathJoin pp nm) (some (entryOf (nm, FTree.dir lerr cs))) lerr cs
              pp rest' fs := by
            refine ⟨by simp [hfs], by simp, by simp, by simp, by simp,
              by simp [visitIsDir, entryOf, isDirB], by simpa using hrep,
              by simp, hOK2, by simp [flen]; omega, by simp⟩
          have hfut : (framesFuture pol ((pp, (nm, FTree.dir lerr cs) :: rest') :: fs)).1 =
              (pathJoin pp nm, none) ::
                (expFuture pol (pathJoin pp nm) (some (entryOf (nm, FTree.dir lerr cs)))
                  lerr cs pp rest' fs).1 ∧
              (framesFuture pol ((pp, (nm, FTree.dir lerr cs) :: rest') :: fs)).2 =
                (expFuture pol (pathJoin pp nm) (some (entryOf (nm, FTree.dir lerr cs)))
                  lerr cs pp rest' fs).2 := by
            cases lerr with
            | none =>
              constructor <;>
                simp [framesFuture, dlist, dwalk, hpr, expFuture, List.append_assoc]
            | some e =>
              cases hpr2 : pol (pathJoin pp nm)
                  (some (entryOf (nm, FTree.dir (some e) cs))) (some e) with
              | keep =>
                constructor <;>
                  simp [framesFuture, dlist, dwalk, hpr, hpr2, expFuture, List.append_assoc]
              | skipDir =>
                constructor <;>
                  simp [framesFuture, dlist, dwalk, hpr, hpr2, expFuture, List.append_assoc]
              | skipParent =>
                constructor <;>
                  simp [framesFuture, dlist, dwalk, hpr, hpr2, expFuture, List.append_assoc]
          rw [hfut.1] at hfuel ⊢
          rw [hfut.2]
          have he := hE _ _ _ _ _ _ _ _ hexp (by simpa using hfuel)
          exact ⟨by simp [obs, he.1], he.2⟩
        | skipDir =>
          have hcw : consume pol
              ({ w with
                  cur := ⟨pathJoin pp nm, some (entryOf (nm, FTree.dir lerr cs)), none,
                    flen fs + rest'.length, flen fs⟩,
                  stack := stackOfFrames ((pp, rest') :: fs),
                  descend := true } : Walker) =
              { w with
                  cur := ⟨pathJoin pp nm, some (entryOf (nm, FTree.dir lerr cs)), none,
                    flen fs + rest'.length, flen fs⟩,
                  stack := stackOfFrames ((pp, rest') :: fs),
                  descend := false } := by
            simp [consume, Walker.Path, Walker.Entry, Walker.Err, hpr, applyPrune,
              Walker.SkipDir, htrunc0]
          rw [hcw]
          have hqok : QuietOK fsys
              ({ w with
                  cur := ⟨pathJoin pp nm, some (entryOf (nm, FTree.dir lerr cs)), none,
                    flen fs + rest'.length, flen fs⟩,
                  stack := stackOfFrames ((pp, rest') :: fs),
                  descend := false } : Walker) ((pp, rest') :: fs) := by
            refine ⟨by simp [hfs], ?_, by simp, hOK2⟩
            exact expandFlag_of_notDescend (by simp)
          have hFv : (framesFuture pol ((pp, (nm, FTree.dir lerr cs) :: rest') :: fs)).1 =
              (pathJoin pp nm, none) :: (framesFuture pol ((pp, rest') :: fs)).1 := by
            simp [framesFuture, dlist, dwalk, hpr]
          have hFr : (framesFuture pol ((pp, (nm, FTree.dir lerr cs) :: rest') :: fs)).2 =
              (framesFuture pol ((pp, rest') :: fs)).2 := by
            simp [framesFuture, dlist, dwalk, hpr]
          rw [hFv] at hfuel ⊢
          rw [hFr]
          have hq := hQ _ _ hqok (by simpa using hfuel)
          exact ⟨by simp [obs, hq.1], hq.2⟩
        | skipParent =>
          have hcw : consume pol
              ({ w with
                  cur := ⟨pathJoin pp nm, some (entryOf (nm, FTree.dir lerr cs)), none,
                    flen fs + rest'.length, flen fs⟩,
                  stack := stackOfFrames ((pp, rest') :: fs),
                  descend := true } : Walker) =
              { w with
                  cur := ⟨pathJoin pp nm, some (entryOf (nm, FTree.dir lerr cs)), none,
                    flen fs + rest'.length, flen fs⟩,
                  stack := stackOfFrames fs,
                  descend := false } := by
            simp [consume, Walker.Path, Walker.Entry, Walker.Err, hpr, applyPrune,
              Walker.SkipParent, htrunc1]
          rw [hcw]
          have hqok : QuietOK fsys
              ({ w with
                  cur := ⟨pathJoin pp nm, some (entryOf (nm, FTree.dir lerr cs)), none,
                    flen fs + rest'.length, flen fs⟩,
                  stack := stackOfFrames fs,
                  descend := false } : Walker) fs := by
            refine ⟨by simp [hfs], ?_, by simp, hOKfs⟩
            exact expandFlag_of_notDescend (by simp)
          have hFv : (framesFuture pol ((pp, (nm, FTree.dir lerr cs) :: rest') :: fs)).1 =
              (pathJoin pp nm, none) :: (framesFuture pol fs).1 := by
            simp [framesFuture, dlist, dwalk, hpr]
          have hFr : (framesFuture pol ((pp, (nm, FTree.dir lerr cs) :: rest') :: fs)).2 =
              (framesFuture pol fs).2 := by
            simp [framesFuture, dlist, dwalk, hpr]
          rw [hFv] at hfuel ⊢
          rw [hFr]
          have hq := hQ _ _ hqok (by simpa using hfuel)
          exact ⟨by simp [obs, hq.1], hq.2⟩

end Walk

namespace Walk

theorem masterQE (pol : Policy) (fsys : FS) :
    ∀ fuel, QStat pol fsys fuel ∧ EStat pol fsys fuel := by
  intro fuel
  induction fuel with
  | zero =>
    constructor
    · intro w F _ hb
      omega
    · intro w p ent lerr cs pp sibs rest _ hb
      omega
  | succ fuel ihp =>
    obtain ⟨ihQ, ihE⟩ := ihp
    constructor
    · rintro w F ⟨hfs, hflag, hstack, hOK⟩ hfuel
      rw [runP_eq_popRun, readsP_eq_popReads, expandPhase_flagFalse hflag,
        nextReads_flagFalse hflag]
      simp only [List.nil_append]
      exact popCont pol fsys fuel ihQ ihE F w hfs hstack hOK (by omega)
    · rintro w p ent lerr cs pp sibs rest
        ⟨hfs, hdesc, hpath, hinfo, herr, hdir, hrep, hstack, hOK, hsd, hsp⟩ hfuel
      have hflag : expandFlag w = true := by
        simp [expandFlag, hdesc, herr, hdir]
      obtain ⟨hrd, hcs⟩ := Represents_dir_elim hrep
      have hread : w.fsys.readDir p = (cs.map entryOf, lerr) := by
        rw [hfs]; exact hrd
      have hcurv : w.cur = (⟨p, ent, none, flen ((pp, sibs) :: rest), flen rest⟩ : Visit) := by
        have he : w.cur =
            (⟨w.cur.path, w.cur.info, w.cur.err, w.cur.skipDir, w.cur.skipPar⟩ : Visit) := rfl
        rw [he, hpath, hinfo, herr, hsd, hsp]
      have hOK' : FramesOK fsys ((p, cs) :: (pp, sibs) :: rest) := by
        intro f hf nc hnc
        rcases List.mem_cons.mp hf with rfl | hf'
        · exact hcs nc hnc
        · exact hOK f hf' nc hnc
      have hnr : nextReads w = [p] := by
        rw [nextReads_flagTrue hflag, hcurv]
      cases lerr with
      | none =>
        have hexp1 : expandPhase w =
            { w with stack := stackOfFrames ((p, cs) :: (pp, sibs) :: rest) } := by
          simp [expandPhase, hflag, hcurv, hread, hstack, pushChildren_eq,
            stackOfFrames, flen]
        have hpc := popCont pol fsys fuel ihQ ihE ((p, cs) :: (pp, sibs) :: rest)
          ({ w with stack := stackOfFrames ((p, cs) :: (pp, sibs) :: rest) } : Walker)
          (by simp [hfs]) (by simp) hOK'
          (by simp only [expFuture, framesFuture, List.length_append,
                List.length_cons] at hfuel ⊢
              omega)
        rw [runP_eq_popRun, readsP_eq_popReads, hexp1, hnr]
        constructor
        · rw [hpc.1]
          simp [expFuture, framesFuture]
        · rw [hpc.2]
          simp [expFuture, framesFuture]
      | some e =>
        have hexp1 : expandPhase w =
            { w with
                cur := ⟨p, ent, some e, flen ((pp, sibs) :: rest), flen rest⟩,
                stack := (⟨p, ent, some e, flen ((pp, sibs) :: rest), flen rest⟩ : Visit) ::
                  stackOfFrames ((p, cs) :: (pp, sibs) :: rest) } := by
          simp [expandPhase, hflag, hcurv, hread, hstack, pushChildren_eq,
            stackOfFrames, flen]
        rw [runP_eq_popRun, readsP_eq_popReads, hexp1, hnr]
        have hpr1 : popRun pol fuel
            ({ w with
                cur := ⟨p, ent, some e, flen ((pp, sibs) :: rest), flen rest⟩,
                stack := (⟨p, ent, some e, flen ((pp, sibs) :: rest), flen rest⟩ : Visit) ::
                  stackOfFrames ((p, cs) :: (pp, sibs) :: rest) } : Walker) =
            (⟨p, ent, some e, flen ((pp, sibs) :: rest), flen rest⟩ : Visit) ::
              runP pol fuel (consume pol
                ({ w with
                    cur := ⟨p, ent, some e, flen ((pp, sibs) :: rest), flen rest⟩,
                    stack := stackOfFrames ((p, cs) :: (pp, sibs) :: rest),
                    descend := true } : Walker)) := by
          simp [popRun, popPhase]
        have hpp1 : popReads pol fuel
            ({ w with
                cur := ⟨p, ent, some e, flen ((pp, sibs) :: rest), flen rest⟩,
                stack := (⟨p, ent, some e, flen ((pp, sibs) :: rest), flen rest⟩ : Visit) ::
                  stackOfFrames ((p, cs) :: (pp, sibs) :: rest) } : Walker) =
            readsP pol fuel (consume pol
              ({ w with
                  cur := ⟨p, ent, some e, flen ((pp, sibs) :: rest), flen rest⟩,
                  stack := stackOfFrames ((p, cs) :: (pp, sibs) :: rest),
                  descend := true } : Walker)) := by
          simp [popReads, popPhase]
        rw [hpr1, hpp1]
        cases hpr2 : pol p ent (some e) with
        | keep =>
          have hcw : consume pol
              ({ w with
                  cur := ⟨p, ent, some e, flen ((pp, sibs) :: rest), flen rest⟩,
                  stack := stackOfFrames ((p, cs) :: (pp, sibs) :: rest),
                  descend := true } : Walker) =
              { w with
                  cur := ⟨p, ent, some e, flen ((pp, sibs) :: rest), flen rest⟩,
                  stack := stackOfFrames ((p, cs) :: (pp, sibs) :: rest),
                  descend := true } := by
            simp [consume, Walker.Path, Walker.Entry, Walker.Err, hpr2, applyPrune]
          rw [hcw]
          have hqok : QuietOK fsys
              ({ w with
                  cur := ⟨p, ent, some e, flen ((pp, sibs) :: rest), flen rest⟩,
                  stack := stackOfFrames ((p, cs) :: (pp, sibs) :: rest),
                  descend := true } : Walker) ((p, cs) :: (pp, sibs) :: rest) := by
            exact ⟨by simp [hfs], expandFlag_of_err rfl, by simp, hOK'⟩
          have hq := ihQ _ _ hqok
            (by simp only [expFuture, framesFuture, hpr2, List.length_append,
                  List.length_cons] at hfuel ⊢
                omega)
          constructor
          · simp only [List.map_cons, hq.1]
            simp [expFuture, framesFuture, hpr2, obs]
          · rw [hq.2]
            simp [expFuture, framesFuture, hpr2]
        | skipDir =>
          have htr : stackTrunc (stackOfFrames ((p, cs) :: (pp, sibs) :: rest))
              (flen ((pp, sibs) :: rest)) = stackOfFrames ((pp, sibs) :: rest) :=
            stackTrunc_frames [(p, cs)] ((pp, sibs) :: rest)
          have hcw : consume pol
              ({ w with
                  cur := ⟨p, ent, some e, flen ((pp, sibs) :: rest), flen rest⟩,
                  stack := stackOfFrames ((p, cs) :: (pp, sibs) :: rest),
                  descend := true } : Walker) =
              { w with
                  cur := ⟨p, ent, some e, flen ((pp, sibs) :: rest), flen rest⟩,
                  stack := stackOfFrames ((pp, sibs) :: rest),
                  descend := false } := by
            simp [consume, Walker.Path, Walker.Entry, Walker.Err, hpr2, applyPrune,
              Walker.SkipDir, htr]
          rw [hcw]
          have hqok : QuietOK fsys
              ({ w with
                  cur := ⟨p, ent, some e, flen ((pp, sibs) :: rest), flen rest⟩,
                  stack := stackOfFrames ((pp, sibs) :: rest),
                  descend := false } : Walker) ((pp, sibs) :: rest) := by
            exact ⟨by simp [hfs], expandFlag_of_notDescend (by simp), by simp, hOK⟩
          have hq := ihQ _ _ hqok
            (by simp only [expFuture, framesFuture, hpr2, List.length_append,
                  List.length_cons] at hfuel ⊢
                omega)
          constructor
          · simp only [List.map_cons, hq.1]
            simp [expFuture, framesFuture, hpr2, obs]
          · rw [hq.2]
            simp [expFuture, framesFuture, hpr2]
        | skipParent =>
          have htr : stackTrunc (stackOfFrames ((p, cs) :: (pp, sibs) :: rest))
              (flen rest) = stackOfFrames rest :=
            stackTrunc_frames [(p, cs), (pp, sibs)] rest
          have hcw : consume pol
              ({ w with
                  cur := ⟨p, ent, some e, flen ((pp, sibs) :: rest), flen rest⟩,
                  stack := stackOfFrames ((p, cs) :: (pp, sibs) :: rest),
                  descend := true } : Walker) =
              { w with
                  cur := ⟨p, ent, some e, flen ((pp, sibs) :: rest), flen rest⟩,
                  stack := stackOfFrames rest,
                  descend := false } := by
            simp [consume, Walker.Path, Walker.Entry, Walker.Err, hpr2, applyPrune,
              Walker.SkipParent, htr]
          rw [hcw]
          have hqok : QuietOK fsys
              ({ w with
                  cur := ⟨p, ent, some e, flen ((pp, sibs) :: rest), flen rest⟩,
                  stack := stackOfFrames rest,
                  descend := false } : Walker) rest := by
            exact ⟨by simp [hfs], expandFlag_of_notDescend (by simp), by simp,
              (FramesOK_cons hOK).2⟩
          have hq := ihQ _ _ hqok
            (by simp only [expFuture, framesFuture, hpr2, List.length_append,
                  List.length_cons] at hfuel ⊢
                omega)
          constructor
          · simp only [List.map_cons, hq.1]
            simp [expFuture, framesFuture, hpr2, obs]
          · rw [hq.2]
            simp [expFuture, framesFuture, hpr2]

/-! ### Fuel bounds and the top-level simulation -/

mutual
theorem dwalk_len_le (pol : Policy) (ent : Option DirEntry) (p : String) :
    ∀ t, (dwalk pol ent p t).vs.length ≤ tsize t
  | FTree.file => by simp [dwalk, tsize]
  | FTree.dir lerr cs => by
    have h := dlist_len_le pol p cs
    cases hpr : pol p ent none <;> cases lerr <;>
      simp [dwalk, tsize, hpr, tsizeList] <;>
      first
        | omega
        | (cases hpr2 : pol p ent (some _) <;> simp [dwalk, hpr2] <;> omega)
theorem dlist_len_le (pol : Policy) (p : String) :
    ∀ l : List (String × FTree), (dlist pol p l).vs.length ≤ tsizeList l
  | [] => by simp [dlist, tsizeList]
  | nc :: rest => by
    have h1 := dwalk_len_le pol (some (entryOf nc)) (pathJoin p nc.1) nc.2
    have h2 := dlist_len_le pol p rest
    by_cases hab : (dwalk pol (some (entryOf nc)) (pathJoin p nc.1) nc.2).ab
    · simp [dlist, hab, tsizeList]
      omega
    · simp [dlist, hab, tsizeList]
      omega
end

theorem run_denotation (pol : Policy) (fsys : FS) (root : String) (t : FTree)
    (ent : DirEntry) (hrep : Represents fsys root t)
    (hstat : fsys.stat root = (some ent, none))
    (hdir : ent.isDir = isDirB t) :
    ∀ fuel, (dwalk pol (some ent) root t).vs.length + 1 ≤ fuel →
      (runP pol fuel (New fsys root)).map obs = (dwalk pol (some ent) root t).vs ∧
      readsP pol fuel (New fsys root) = (dwalk pol (some ent) root t).rds := by
  intro fuel hfuel
  obtain ⟨fuel', rfl⟩ : ∃ f', fuel = f' + 1 := ⟨fuel - 1, by omega⟩
  obtain ⟨ihQ, ihE⟩ := masterQE pol fsys fuel'
  have hflagN : expandFlag (New fsys root) = false :=
    expandFlag_of_notDescend (by simp [New])
  rw [runP_eq_popRun, readsP_eq_popReads, expandPhase_flagFalse hflagN,
    nextReads_flagFalse hflagN]
  have hpr1 : popRun pol fuel' (New fsys root) =
      (⟨root, some ent, none, 0, 0⟩ : Visit) ::
        runP pol fuel'
          (consume pol (⟨fsys, ⟨root, some ent, none, 0, 0⟩, [], true⟩ : Walker)) := by
    simp [popRun, popPhase, New, hstat]
  have hpp1 : popReads pol fuel' (New fsys root) =
      readsP pol fuel'
        (consume pol (⟨fsys, ⟨root, some ent, none, 0, 0⟩, [], true⟩ : Walker)) := by
    simp [popReads, popPhase, New, hstat]
  rw [hpr1, hpp1]
  simp only [List.nil_append]
  cases t with
  | file =>
    simp only [isDirB] at hdir
    have hOKnil : FramesOK fsys [] := by
      intro f hf
      simp at hf
    cases hpr : pol root (some ent) none with
    | keep =>
      have hcw : consume pol (⟨fsys, ⟨root, some ent, none, 0, 0⟩, [], true⟩ : Walker) =
          (⟨fsys, ⟨root, some ent, none, 0, 0⟩, [], true⟩ : Walker) := by
        simp [consume, Walker.Path, Walker.Entry, Walker.Err, hpr, applyPrune]
      rw [hcw]
      have hq := ihQ (⟨fsys, ⟨root, some ent, none, 0, 0⟩, [], true⟩ : Walker) []
        ⟨rfl, expandFlag_of_notDir (by simp [visitIsDir, hdir]),
          by simp [stackOfFrames], hOKnil⟩
        (by simp only [framesFuture, List.length_nil]
            simp [dwalk] at hfuel
            omega)
      constructor
      · simp only [List.map_cons, hq.1]
        simp [obs, dwalk, framesFuture]
      · rw [hq.2]
        simp [dwalk, framesFuture]
    | skipDir =>
      have hcw : consume pol (⟨fsys, ⟨root, some ent, none, 0, 0⟩, [], true⟩ : Walker) =
          (⟨fsys, ⟨root, some ent, none, 0, 0⟩, [], false⟩ : Walker) := by
        simp [consume, Walker.Path, Walker.Entry, Walker.Err, hpr, applyPrune,
          Walker.SkipDir, stackTrunc]
      rw [hcw]
      have hq := ihQ (⟨fsys, ⟨root, some ent, none, 0, 0⟩, [], false⟩ : Walker) []
        ⟨rfl, expandFlag_of_notDescend (by simp), by simp [stackOfFrames], hOKnil⟩
        (by simp only [framesFuture, List.length_nil]
            simp [dwalk] at hfuel
            omega)
      constructor
      · simp only [List.map_cons, hq.1]
        simp [obs, dwalk, framesFuture]
      · rw [hq.2]
        simp [dwalk, framesFuture]
    | skipParent =>
      have hcw : consume pol (⟨fsys, ⟨root, some ent, none, 0, 0⟩, [], true⟩ : Walker) =
          (⟨fsys, ⟨root, some ent, none, 0, 0⟩, [], false⟩ : Walker) := by
        simp [consume, Walker.Path, Walker.Entry, Walker.Err, hpr, applyPrune,
          Walker.SkipParent, stackTrunc]
      rw [hcw]
      have hq := ihQ (⟨fsys, ⟨root, some ent, none, 0, 0⟩, [], false⟩ : Walker) []
        ⟨rfl, expandFlag_of_notDescend (by simp), by simp [stackOfFrames], hOKnil⟩
        (by simp only [framesFuture, List.length_nil]
            simp [dwalk] at hfuel
            omega)
      constructor
      · simp only [List.map_cons, hq.1]
        simp [obs, dwalk, framesFuture]
      · rw [hq.2]
        simp [dwalk, framesFuture]
  | dir lerr cs =>
    simp only [isDirB] at hdir
    have hOK1 : FramesOK fsys [(root, [])] := by
      intro f hf nc hnc
      simp at hf
      rw [hf] at hnc
      simp at hnc
    cases hpr : pol root (some ent) none with
    | keep =>
      have hcw : consume pol (⟨fsys, ⟨root, some ent, none, 0, 0⟩, [], true⟩ : Walker) =
          (⟨fsys, ⟨root, some ent, none, 0, 0⟩, [], true⟩ : Walker) := by
        simp [consume, Walker.Path, Walker.Entry, Walker.Err, hpr, applyPrune]
      rw [hcw]
      have hexp : ExpOK fsys (⟨fsys, ⟨root, some ent, none, 0, 0⟩, [], true⟩ : Walker)
          root (some ent) lerr cs root [] [] :=
        ⟨rfl, rfl, rfl, rfl, rfl, by simp [visitIsDir, hdir], hrep,
          by simp [stackOfFrames, sibVisits], hOK1, by simp [flen], rfl⟩
      have hfut : (dwalk pol (some ent) root (FTree.dir lerr cs)).vs =
          (root, none) :: (expFuture pol root (some ent) lerr cs root [] []).1 ∧
          (dwalk pol (some ent) root (FTree.dir lerr cs)).rds =
          (expFuture pol root (some ent) lerr cs root [] []).2 := by
        cases lerr with
        | none =>
          constructor <;> simp [dwalk, expFuture, hpr, framesFuture, dlist]
        | some e =>
          cases hpr2 : pol root (some ent) (some e) with
          | keep =>
            constructor <;> simp [dwalk, expFuture, hpr, hpr2, framesFuture, dlist]
          | skipDir =>
            constructor <;> simp [dwalk, expFuture, hpr, hpr2, framesFuture, dlist]
          | skipParent =>
            constructor <;> simp [dwalk, expFuture, hpr, hpr2, framesFuture, dlist]
      have he := ihE _ _ _ _ _ _ _ _ hexp
        (by rw [hfut.1] at hfuel; simp at hfuel; omega)
      constructor
      · simp only [List.map_cons, he.1]
        rw [hfut.1]
        simp [obs]
      · rw [he.2, hfut.2]
    | skipDir =>
      have hcw : consume pol (⟨fsys, ⟨root, some ent, none, 0, 0⟩, [], true⟩ : Walker) =
          (⟨fsys, ⟨root, some ent, none, 0, 0⟩, [], false⟩ : Walker) := by
        simp [consume, Walker.Path, Walker.Entry, Walker.Err, hpr, applyPrune,
          Walker.SkipDir, stackTrunc]
      rw [hcw]
      have hq := ihQ (⟨fsys, ⟨root, some ent, none, 0, 0⟩, [], false⟩ : Walker) []
        ⟨rfl, expandFlag_of_notDescend (by simp), by simp [stackOfFrames],
          by intro f hf; simp at hf⟩
        (by simp only [framesFuture, List.length_nil]
            simp [dwalk, hpr] at hfuel
            omega)
      constructor
      · simp only [List.map_cons, hq.1]
        simp [obs, dwalk, framesFuture, hpr]
      · rw [hq.2]
        simp [dwalk, framesFuture, hpr]
    | skipParent =>
      have hcw : consume pol (⟨fsys, ⟨root, some ent, none, 0, 0⟩, [], true⟩ : Walker) =
          (⟨fsys, ⟨root, some ent, none, 0, 0⟩, [], false⟩ : Walker) := by
        simp [consume, Walker.Path, Walker.Entry, Walker.Err, hpr, applyPrune,
          Walker.SkipParent, stackTrunc]
      rw [hcw]
      have hq := ihQ (⟨fsys, ⟨root, some ent, none, 0, 0⟩, [], false⟩ : Walker) []
        ⟨rfl, expandFlag_of_notDescend (by simp), by simp [stackOfFrames],
          by intro f hf; simp at hf⟩
        (by simp only [framesFuture, List.length_nil]
            simp [dwalk, hpr] at hfuel
            omega)
      constructor
      · simp only [List.map_cons, hq.1]
        simp [obs, dwalk, framesFuture, hpr]
      · rw [hq.2]
        simp [dwalk, framesFuture, hpr]

/-! ### Tree-level lemmas about the reference traversal -/

theorem dwalk_keepAll_ab (ent : Option DirEntry) (p : String) (t : FTree) :
    (dwalk keepAll ent p t).ab = false := by
  cases t with
  | file => simp [dwalk, keepAll]
  | dir lerr cs => cases lerr <;> simp [dwalk, keepAll]

theorem dwalk_ab_of_keep (pol : Policy) (ent : Option DirEntry) (p : String) (t : FTree)
    (h1 : pol p ent none = Prune.keep) (h2 : ∀ e, pol p ent (some e) = Prune.keep) :
    (dwalk pol ent p t).ab = false := by
  cases t with
  | file => simp [dwalk, h1]
  | dir lerr cs => cases lerr <;> simp [dwalk, h1, h2]

theorem dwalk_ent_irrel (pol : Policy)
    (hent : ∀ q e₁ e₂ er, pol q e₁ er = pol q e₂ er)
    (e₁ e₂ : Option DirEntry) (p : String) (t : FTree) :
    dwalk pol e₁ p t = dwalk pol e₂ p t := by
  cases t with
  | file => simp only [dwalk]; rw [hent p e₁ e₂ none]
  | dir lerr cs =>
    cases lerr with
    | none => simp only [dwalk]; rw [hent p e₁ e₂ none]
    | some e => simp only [dwalk]; rw [hent p e₁ e₂ none, hent p e₁ e₂ (some e)]

@[simp] theorem nodes_file (p : String) : nodes p FTree.file = [(p, FTree.file)] := by
  simp [nodes]

@[simp] theorem nodes_dir (p : String) (lerr : Option String) (cs : List (String × FTree)) :
    nodes p (FTree.dir lerr cs) = (p, FTree.dir lerr cs) :: nodesList p cs := by
  simp [nodes]

@[simp] theorem nodesList_nil (p : String) : nodesList p [] = [] := by
  simp [nodesList]

@[simp] theorem nodesList_cons (p : String) (nc : String × FTree)
    (rest : List (String × FTree)) :
    nodesList p (nc :: rest) = nodes (pathJoin p nc.1) nc.2 ++ nodesList p rest := by
  simp [nodesList]

mutual
theorem dwalk_congr (p₁ p₂ : Policy) (ent : Option DirEntry) (p : String) :
    ∀ t, (∀ q ∈ (nodes p t).map Prod.fst, ∀ ent' er, p₁ q ent' er = p₂ q ent' er) →
      dwalk p₁ ent p t = dwalk p₂ ent p t
  | FTree.file, h => by
    have hp := h p (by simp [nodes]) ent none
    simp [dwalk, hp]
  | FTree.dir lerr cs, h => by
    have hp0 := h p (by simp [nodes]) ent none
    have hl : dlist p₁ p cs = dlist p₂ p cs :=
      dlist_congr p₁ p₂ p cs
        (fun q hq ent' er =>
          h q (by rw [nodes_dir, List.map_cons]; exact List.mem_cons_of_mem _ hq) ent' er)
    cases lerr with
    | none => simp [dwalk, hp0, hl]
    | some e =>
      have hpe := h p (by simp [nodes]) ent (some e)
      simp [dwalk, hp0, hpe, hl]
theorem dlist_congr (p₁ p₂ : Policy) (p : String) :
    ∀ l, (∀ q ∈ (nodesList p l).map Prod.fst, ∀ ent' er, p₁ q ent' er = p₂ q ent' er) →
      dlist p₁ p l = dlist p₂ p l
  | [], _ => by simp [dlist]
  | nc :: rest, h => by
    have hc : dwalk p₁ (some (entryOf nc)) (pathJoin p nc.1) nc.2 =
        dwalk p₂ (some (entryOf nc)) (pathJoin p nc.1) nc.2 :=
      dwalk_congr p₁ p₂ _ _ nc.2
        (fun q hq ent' er =>
          h q (by rw [nodesList_cons, List.map_append]; exact List.mem_append_left _ hq) ent' er)
    have hr : dlist p₁ p rest = dlist p₂ p rest :=
      dlist_congr p₁ p₂ p rest
        (fun q hq ent' er =>
          h q (by rw [nodesList_cons, List.map_append]; exact List.mem_append_right _ hq) ent' er)
    simp [dlist, hc, hr]
end

mutual
theorem dwalk_paths_sub (pol : Policy) (ent : Option DirEntry) (p : String) :
    ∀ t, (∀ x ∈ (dwalk pol ent p t).vs, x.1 ∈ (nodes p t).map Prod.fst) ∧
      (∀ r ∈ (dwalk pol ent p t).rds, r ∈ (nodes p t).map Prod.fst)
  | FTree.file => by
    constructor <;> intro x hx <;> simp [dwalk] at hx
    simp [hx]
  | FTree.dir lerr cs => by
    have hl := dlist_paths_sub pol p cs
    have hme : ∀ q, q ∈ List.map Prod.fst (nodesList p cs) →
        q ∈ List.map Prod.fst (nodes p (FTree.dir lerr cs)) := by
      intro q hq
      rw [nodes_dir, List.map_cons]
      exact List.mem_cons_of_mem _ hq
    have hp : p ∈ List.map Prod.fst (nodes p (FTree.dir lerr cs)) := by
      rw [nodes_dir, List.map_cons]
      exact List.mem_cons_self _ _
    constructor <;> intro x hx
    · cases hpr : pol p ent none with
      | keep =>
        cases lerr with
        | none =>
          simp only [dwalk, hpr] at hx
          simp at hx
          rcases hx with rfl | hx2
          · exact hp
          · exact hme _ (hl.1 x hx2)
        | some e =>
          cases hpe : pol p ent (some e) with
          | keep =>
            simp only [dwalk, hpr, hpe] at hx
            simp at hx
            rcases hx with rfl | rfl | hx2
            · exact hp
            · exact hp
            · exact hme _ (hl.1 x hx2)
          | skipDir =>
            simp only [dwalk, hpr, hpe] at hx
            simp at hx
            rcases hx with rfl | rfl <;> exact hp
          | skipParent =>
            simp only [dwalk, hpr, hpe] at hx
            simp at hx
            rcases hx with rfl | rfl <;> exact hp
      | skipDir =>
        simp only [dwalk, hpr] at hx
        simp at hx
        subst hx
        exact hp
      | skipParent =>
        simp only [dwalk, hpr] at hx
        simp at hx
        subst hx
        exact hp
    · cases hpr : pol p ent none with
      | keep =>
        cases lerr with
        | none =>
          simp only [dwalk, hpr] at hx
          simp at hx
          rcases hx with rfl | hx2
          · exact hp
          · exact hme _ (hl.2 x hx2)
        | some e =>
          cases hpe : pol p ent (some e) with
          | keep =>
            simp only [dwalk, hpr, hpe] at hx
            simp at hx
            rcases hx with rfl | hx2
            · exact hp
            · exact hme _ (hl.2 x hx2)
          | skipDir =>
            simp only [dwalk, hpr, hpe] at hx
            simp at hx
            subst hx
            exact hp
          | skipParent =>
            simp only [dwalk, hpr, hpe] at hx
            simp at hx
            subst hx
            exact hp
      | skipDir =>
        simp only [dwalk, hpr] at hx
        simp at hx
      | skipParent =>
        simp only [dwalk, hpr] at hx
        simp at hx
theorem dlist_paths_sub (pol : Policy) (p : String) :
    ∀ l, (∀ x ∈ (dlist pol p l).vs, x.1 ∈ (nodesList p l).map Prod.fst) ∧
      (∀ r ∈ (dlist pol p l).rds, r ∈ (nodesList p l).map Prod.fst)
  | [] => by constructor <;> intro x hx <;> simp [dlist] at hx
  | nc :: rest => by
    have hc := dwalk_paths_sub pol (some (entryOf nc)) (pathJoin p nc.1) nc.2
    have hr := dlist_paths_sub pol p rest
    have hmel : ∀ q, q ∈ List.map Prod.fst (nodes (pathJoin p nc.1) nc.2) →
        q ∈ List.map Prod.fst (nodesList p (nc :: rest)) := by
      intro q hq
      rw [nodesList_cons, List.map_append]
      exact List.mem_append_left _ hq
    have hmer : ∀ q, q ∈ List.map Prod.fst (nodesList p rest) →
        q ∈ List.map Prod.fst (nodesList p (nc :: rest)) := by
      intro q hq
      rw [nodesList_cons, List.map_append]
      exact List.mem_append_right _ hq
    cases hab : (dwalk pol (some (entryOf nc)) (pathJoin p nc.1) nc.2).ab with
    | true =>
      constructor <;> intro x hx <;> simp [dlist, hab] at hx
      · exact hmel _ (hc.1 x hx)
      · exact hmel _ (hc.2 x hx)
    | false =>
      constructor <;> intro x hx <;> simp [dlist, hab] at hx
      · rcases hx with hx1 | hx2
        · exact hmel _ (hc.1 x hx1)
        · exact hmer _ (hr.1 x hx2)
      · rcases hx with hx1 | hx2
        · exact hmel _ (hc.2 x hx1)
        · exact hmer _ (hr.2 x hx2)
end

mutual
theorem nodes_decomp (d : String) (sd : FTree) (p : String) :
    ∀ t, (d, sd) ∈ nodes p t → ∃ NA NB, nodes p t = NA ++ nodes d sd ++ NB
  | FTree.file, h => by
    simp [nodes_file] at h
    obtain ⟨rfl, rfl⟩ := h
    exact ⟨[], [], by simp⟩
  | FTree.dir lerr cs, h => by
    rw [nodes_dir] at h
    rcases List.mem_cons.mp h with heq | hmem
    · obtain ⟨rfl, rfl⟩ := Prod.mk.injEq .. ▸ heq
      exact ⟨[], [], by simp⟩
    · obtain ⟨NA, NB, heq⟩ := nodesList_decomp d sd p cs hmem
      exact ⟨(p, FTree.dir lerr cs) :: NA, NB, by simp [heq]⟩
theorem nodesList_decomp (d : String) (sd : FTree) (p : String) :
    ∀ l, (d, sd) ∈ nodesList p l →
      ∃ NA NB, nodesList p l = NA ++ nodes d sd ++ NB
  | [], h => by simp at h
  | nc :: rest, h => by
    rw [nodesList_cons] at h
    rcases List.mem_append.mp h with h1 | h2
    · obtain ⟨NA, NB, heq⟩ := nodes_decomp d sd _ nc.2 h1
      exact ⟨NA, NB ++ nodesList p rest, by simp [heq]⟩
    · obtain ⟨NA, NB, heq⟩ := nodesList_decomp d sd p rest h2
      exact ⟨nodes (pathJoin p nc.1) nc.2 ++ NA, NB, by simp [heq]⟩
end

theorem nodes_self (p : String) (t : FTree) : (p, t) ∈ nodes p t := by
  cases t <;> simp

theorem nodes_nodup_sub {d : String} {sd : FTree} {p : String} {t : FTree}
    (hmem : (d, sd) ∈ nodes p t)
    (hnodup : ((nodes p t).map Prod.fst).Nodup) :
    ((nodes d sd).map Prod.fst).Nodup := by
  obtain ⟨NA, NB, heq⟩ := nodes_decomp d sd p t hmem
  have hsub : List.Sublist ((nodes d sd).map Prod.fst) ((nodes p t).map Prod.fst) := by
    rw [heq]
    simp only [List.map_append, List.append_assoc]
    exact (List.sublist_append_left _ _).trans (List.sublist_append_right _ _)
  exact hnodup.sublist hsub

/-! ### Localising one pruned subtree inside a traversal -/

theorem nodes_paths_mono {d : String} {sd : FTree} {p : String} {t : FTree}
    (hmem : (d, sd) ∈ nodes p t) :
    ∀ q ∈ (nodes d sd).map Prod.fst, q ∈ (nodes p t).map Prod.fst := by
  obtain ⟨NA, NB, heq⟩ := nodes_decomp d sd p t hmem
  intro q hq
  rw [heq]
  simp only [List.map_append, List.mem_append]
  tauto

theorem nodesList_paths_mono {d : String} {sd : FTree} {p : String}
    {l : List (String × FTree)} (hmem : (d, sd) ∈ nodesList p l) :
    ∀ q ∈ (nodes d sd).map Prod.fst, q ∈ (nodesList p l).map Prod.fst := by
  obtain ⟨NA, NB, heq⟩ := nodesList_decomp d sd p l hmem
  intro q hq
  rw [heq]
  simp only [List.map_append, List.mem_append]
  tauto

theorem prune_decomp_base (pol : Policy) (d : String) (sd : FTree)
    (dent : Option DirEntry)
    (hent : ∀ q e₁ e₂ er, pol q e₁ er = pol q e₂ er)
    (hab : (dwalk pol dent d sd).ab = false) (ent : Option DirEntry) :
    (dwalk pol ent d sd).ab = false ∧
    ∃ A B RA RB,
      (dwalk keepAll ent d sd).vs = A ++ (dwalk keepAll dent d sd).vs ++ B ∧
      (dwalk keepAll ent d sd).rds = RA ++ (dwalk keepAll dent d sd).rds ++ RB ∧
      (dwalk pol ent d sd).vs = A ++ (dwalk pol dent d sd).vs ++ B ∧
      (dwalk pol ent d sd).rds = RA ++ (dwalk pol dent d sd).rds ++ RB ∧
      (∀ x ∈ A, x.1 ∉ (nodes d sd).map Prod.fst) ∧
      (∀ x ∈ B, x.1 ∉ (nodes d sd).map Prod.fst) ∧
      (∀ r ∈ RA, r ∉ (nodes d sd).map Prod.fst) ∧
      (∀ r ∈ RB, r ∉ (nodes d sd).map Prod.fst) := by
  have hk : dwalk keepAll ent d sd = dwalk keepAll dent d sd :=
    dwalk_ent_irrel keepAll (fun _ _ _ _ => rfl) ent dent d sd
  have hpi : dwalk pol ent d sd = dwalk pol dent d sd :=
    dwalk_ent_irrel pol hent ent dent d sd
  refine ⟨by rw [hpi]; exact hab, [], [], [], [], ?_, ?_, ?_, ?_,
    by simp, by simp, by simp, by simp⟩
  · simp [hk]
  · simp [hk]
  · simp [hpi]
  · simp [hpi]

mutual
theorem prune_decompT (pol : Policy) (d : String) (sd : FTree)
    (dent : Option DirEntry)
    (hent : ∀ q e₁ e₂ er, pol q e₁ er = pol q e₂ er)
    (hpol : ∀ q ent' er, q ∉ (nodes d sd).map Prod.fst → pol q ent' er = Prune.keep)
    (hab : (dwalk pol dent d sd).ab = false) :
    ∀ (t : FTree) (p : String) (ent : Option DirEntry),
      (d, sd) ∈ nodes p t → ((nodes p t).map Prod.fst).Nodup →
      (dwalk pol ent p t).ab = false ∧
      ∃ A B RA RB,
        (dwalk keepAll ent p t).vs = A ++ (dwalk keepAll dent d sd).vs ++ B ∧
        (dwalk keepAll ent p t).rds = RA ++ (dwalk keepAll dent d sd).rds ++ RB ∧
        (dwalk pol ent p t).vs = A ++ (dwalk pol dent d sd).vs ++ B ∧
        (dwalk pol ent p t).rds = RA ++ (dwalk pol dent d sd).rds ++ RB ∧
        (∀ x ∈ A, x.1 ∉ (nodes d sd).map Prod.fst) ∧
        (∀ x ∈ B, x.1 ∉ (nodes d sd).map Prod.fst) ∧
        (∀ r ∈ RA, r ∉ (nodes d sd).map Prod.fst) ∧
        (∀ r ∈ RB, r ∉ (nodes d sd).map Prod.fst)
  | FTree.file, p, ent, hmem, hnodup => by
    rw [nodes_file] at hmem
    simp only [List.mem_singleton] at hmem
    have h1 : d = p ∧ sd = FTree.file := by
      constructor
      · exact congrArg Prod.fst hmem
      · exact congrArg Prod.snd hmem
    obtain ⟨rfl, hsd⟩ := h1
    subst hsd
    exact prune_decomp_base pol d FTree.file dent hent hab ent
  | FTree.dir lerr cs, p, ent, hmem, hnodup => by
    rw [nodes_dir] at hmem
    rcases List.mem_cons.mp hmem with heq | hmem'
    · have h1 : d = p ∧ sd = FTree.dir lerr cs := by
        constructor
        · exact congrArg Prod.fst heq
        · exact congrArg Prod.snd heq
      obtain ⟨rfl, hsd⟩ := h1
      subst hsd
      exact prune_decomp_base pol d (FTree.dir lerr cs) dent hent hab ent
    · -- the special node lies strictly inside the children
      rw [nodes_dir] at hnodup
      simp only [List.map_cons] at hnodup
      rw [List.nodup_cons] at hnodup
      obtain ⟨hpnot, hnodup'⟩ := hnodup
      have hpns : p ∉ (nodes d sd).map Prod.fst := fun h =>
        hpnot (nodesList_paths_mono hmem' p h)
      have hp0 : pol p ent none = Prune.keep := hpol p ent none hpns
      have hpe : ∀ e, pol p ent (some e) = Prune.keep := fun e =>
        hpol p ent (some e) hpns
      obtain ⟨A', B', RA', RB', hk1, hk2, hq1, hq2, ha1, ha2, ha3, ha4⟩ :=
        prune_decompL pol d sd dent hent hpol hab cs p hmem' hnodup'
      have habt : (dwalk pol ent p (FTree.dir lerr cs)).ab = false :=
        dwalk_ab_of_keep pol ent p _ hp0 hpe
      refine ⟨habt, ?_⟩
      cases lerr with
      | none =>
        refine ⟨(p, none) :: A', B', p :: RA', RB', ?_, ?_, ?_, ?_, ?_, ha2, ?_, ha4⟩
        · simp [dwalk, keepAll, hk1]
        · simp [dwalk, keepAll, hk2]
        · simp [dwalk, hp0, hq1]
        · simp [dwalk, hp0, hq2]
        · intro x hx
          rcases List.mem_cons.mp hx with rfl | hx'
          · exact hpns
          · exact ha1 x hx'
        · intro r hr
          rcases List.mem_cons.mp hr with rfl | hr'
          · exact hpns
          · exact ha3 r hr'
      | some e =>
        refine ⟨(p, none) :: (p, some e) :: A', B', p :: RA', RB',
          ?_, ?_, ?_, ?_, ?_, ha2, ?_, ha4⟩
        · simp [dwalk, keepAll, hk1]
        · simp [dwalk, keepAll, hk2]
        · simp [dwalk, hp0, hpe, hq1]
        · simp [dwalk, hp0, hpe, hq2]
        · intro x hx
          rcases List.mem_cons.mp hx with rfl | hx'
          · exact hpns
          · rcases List.mem_cons.mp hx' with rfl | hx''
            · exact hpns
            · exact ha1 x hx''
        · intro r hr
          rcases List.mem_cons.mp hr with rfl | hr'
          · exact hpns
          · exact ha3 r hr'
theorem prune_decompL (pol : Policy) (d : String) (sd : FTree)
    (dent : Option DirEntry)
    (hent : ∀ q e₁ e₂ er, pol q e₁ er = pol q e₂ er)
    (hpol : ∀ q ent' er, q ∉ (nodes d sd).map Prod.fst → pol q ent' er = Prune.keep)
    (hab : (dwalk pol dent d sd).ab = false) :
    ∀ (l : List (String × FTree)) (p : String),
      (d, sd) ∈ nodesList p l → ((nodesList p l).map Prod.fst).Nodup →
      ∃ A B RA RB,
        (dlist keepAll p l).vs = A ++ (dwalk keepAll dent d sd).vs ++ B ∧
        (dlist keepAll p l).rds = RA ++ (dwalk keepAll dent d sd).rds ++ RB ∧
        (dlist pol p l).vs = A ++ (dwalk pol dent d sd).vs ++ B ∧
        (dlist pol p l).rds = RA ++ (dwalk pol dent d sd).rds ++ RB ∧
        (∀ x ∈ A, x.1 ∉ (nodes d sd).map Prod.fst) ∧
        (∀ x ∈ B, x.1 ∉ (nodes d sd).map Prod.fst) ∧
        (∀ r ∈ RA, r ∉ (nodes d sd).map Prod.fst) ∧
        (∀ r ∈ RB, r ∉ (nodes d sd).map Prod.fst)
  | [], p, hmem, _ => by simp at hmem
  | nc :: rest, p, hmem, hnodup => by
    rw [nodesList_cons] at hmem hnodup
    rw [List.map_append, List.nodup_append] at hnodup
    obtain ⟨hnd1, hnd2, hdisj⟩ := hnodup
    rcases List.mem_append.mp hmem with h1 | h2
    · -- special node inside (or equal to) the first child's subtree
      obtain ⟨habc, A', B', RA', RB', hk1, hk2, hq1, hq2, ha1, ha2, ha3, ha4⟩ :=
        prune_decompT pol d sd dent hent hpol hab nc.2 (pathJoin p nc.1)
          (some (entryOf nc)) h1 hnd1
      have hsubC : ∀ q ∈ (nodes d sd).map Prod.fst,
          q ∈ (nodes (pathJoin p nc.1) nc.2).map Prod.fst :=
        nodes_paths_mono h1
      have hrcongr : dlist pol p rest = dlist keepAll p rest := by
        apply dlist_congr
        intro q hq ent' er
        have hqns : q ∉ (nodes d sd).map Prod.fst := fun hin =>
          hdisj (hsubC q hin) hq
        rw [hpol q ent' er hqns]
        rfl
      have hrest := dlist_paths_sub keepAll p rest
      refine ⟨A', B' ++ (dlist keepAll p rest).vs, RA',
        RB' ++ (dlist keepAll p rest).rds, ?_, ?_, ?_, ?_, ha1, ?_, ha3, ?_⟩
      · simp [dlist, dwalk_keepAll_ab, hk1, List.append_assoc]
      · simp [dlist, dwalk_keepAll_ab, hk2, List.append_assoc]
      · simp [dlist, habc, hq1, hrcongr, List.append_assoc]
      · simp [dlist, habc, hq2, hrcongr, List.append_assoc]
      · intro x hx
        rcases List.mem_append.mp hx with hx1 | hx2
        · exact ha2 x hx1
        · exact fun hin => hdisj (hsubC x.1 hin) (hrest.1 x hx2)
      · intro r hr
        rcases List.mem_append.mp hr with hr1 | hr2
        · exact ha4 r hr1
        · exact fun hin => hdisj (hsubC r hin) (hrest.2 r hr2)
    · -- special node inside the remaining siblings
      obtain ⟨A', B', RA', RB', hk1, hk2, hq1, hq2, ha1, ha2, ha3, ha4⟩ :=
        prune_decompL pol d sd dent hent hpol hab rest p h2 hnd2
      have hsubR : ∀ q ∈ (nodes d sd).map Prod.fst,
          q ∈ (nodesList p rest).map Prod.fst :=
        nodesList_paths_mono h2
      have hccongr : dwalk pol (some (entryOf nc)) (pathJoin p nc.1) nc.2 =
          dwalk keepAll (some (entryOf nc)) (pathJoin p nc.1) nc.2 := by
        apply dwalk_congr
        intro q hq ent' er
        have hqns : q ∉ (nodes d sd).map Prod.fst := fun hin =>
          hdisj hq (hsubR q hin)
        rw [hpol q ent' er hqns]
        rfl
      have hchild := dwalk_paths_sub keepAll (some (entryOf nc)) (pathJoin p nc.1) nc.2
      refine ⟨(dwalk keepAll (some (entryOf nc)) (pathJoin p nc.1) nc.2).vs ++ A', B',
        (dwalk keepAll (some (entryOf nc)) (pathJoin p nc.1) nc.2).rds ++ RA', RB',
        ?_, ?_, ?_, ?_, ?_, ha2, ?_, ha4⟩
      · simp [dlist, dwalk_keepAll_ab, hk1, List.append_assoc]
      · simp [dlist, dwalk_keepAll_ab, hk2, List.append_assoc]
      · simp [dlist, hccongr, dwalk_keepAll_ab, hq1, List.append_assoc]
      · simp [dlist, hccongr, dwalk_keepAll_ab, hq2, List.append_assoc]
      · intro x hx
        rcases List.mem_append.mp hx with hx1 | hx2
        · exact fun hin => hdisj (hchild.1 x hx1) (hsubR x.1 hin)
        · exact ha1 x hx2
      · intro r hr
        rcases List.mem_append.mp hr with hr1 | hr2
        · exact fun hin => hdisj (hchild.2 r hr1) (hsubR r hin)
        · exact ha3 r hr2
end

/-! ### Claim theorems (first group) -/

mutual
theorem dwalk_keep_preorder (ent : Option DirEntry) (p : String) :
    ∀ t, errFree t = true → (dwalk keepAll ent p t).vs.map Prod.fst = preorder p t
  | FTree.file, _ => by simp [dwalk, keepAll, preorder]
  | FTree.dir lerr cs, h => by
    simp only [errFree, Bool.and_eq_true, decide_eq_true_eq] at h
    obtain ⟨h1, h2⟩ := h
    subst h1
    simp [dwalk, keepAll, preorder, dlist_keep_preorder p cs h2]
theorem dlist_keep_preorder (p : String) :
    ∀ l, errFreeList l = true → (dlist keepAll p l).vs.map Prod.fst = preorderList p l
  | [], _ => by simp [dlist, preorderList]
  | nc :: rest, h => by
    simp only [errFreeList, Bool.and_eq_true] at h
    obtain ⟨h1, h2⟩ := h
    simp [dlist, dwalk_keepAll_ab, preorderList,
      dwalk_keep_preorder (some (entryOf nc)) (pathJoin p nc.1) nc.2 h1,
      dlist_keep_preorder p rest h2]
end

/-- C1: for a tree whose root stat succeeds and all of whose directory
listings succeed, with lexically sorted listings, the paths emitted by
repeatedly calling `Next` until it returns `false` are exactly the lexical
pre-order listing of the tree, the root path first.  Any fuel of at least
`tsize t + 1` covers the whole traversal including the terminal `false`. -/
theorem walk_emits_lexical_preorder (fsys : FS) (root : String) (t : FTree)
    (ent : DirEntry) (hrep : Represents fsys root t)
    (hstat : fsys.stat root = (some ent, none)) (hdir : ent.isDir = isDirB t)
    (herr : errFree t = true) (hsort : sortedTree t = true)
    (fuel : Nat) (hfuel : tsize t + 1 ≤ fuel) :
    (runP keepAll fuel (New fsys root)).map Visit.path = preorder root t := by
  have hlen := dwalk_len_le keepAll (some ent) root t
  have hrd := run_denotation keepAll fsys root t ent hrep hstat hdir fuel (by omega)
  have hmm : (runP keepAll fuel (New fsys root)).map Visit.path =
      ((runP keepAll fuel (New fsys root)).map obs).map Prod.fst := by
    simp [obs, List.map_map, Function.comp]
  rw [hmm, hrd.1, dwalk_keep_preorder (some ent) root t herr]

/-- The tree of the repository's `TestWalk` test. -/
def exTree : FTree :=
  FTree.dir none [("a", FTree.file), ("b", FTree.dir none []), ("c", FTree.file),
    ("d", FTree.dir none [("x", FTree.file), ("y", FTree.dir none []),
      ("z", FTree.dir none [("u", FTree.file), ("v", FTree.file)])])]

/-- A filesystem representing `exTree` at root `"."`. -/
def exFS : FS where
  stat := fun p => if p = "." then (some ⟨".", true⟩, none) else (none, some "stat error")
  readDir := fun p =>
    if p = "." then ([⟨"a", false⟩, ⟨"b", true⟩, ⟨"c", false⟩, ⟨"d", true⟩], none)
    else if p = "b" then ([], none)
    else if p = "d" then ([⟨"x", false⟩, ⟨"y", true⟩, ⟨"z", true⟩], none)
    else if p = "d/y" then ([], none)
    else if p = "d/z" then ([⟨"u", false⟩, ⟨"v", false⟩], none)
    else ([], some "read error")

theorem exRepresents : Represents exFS "." exTree := by
  apply Represents.dir
  · decide
  · intro nc hnc
    simp only [exTree, List.mem_cons, List.not_mem_nil, or_false] at hnc
    rcases hnc with rfl | rfl | rfl | rfl
    · exact Represents.file _
    · exact Represents.dir _ _ _ (by decide) (by intro nc h; simp at h)
    · exact Represents.file _
    · apply Represents.dir
      · decide
      · intro nc hnc
        simp only [List.mem_cons, List.not_mem_nil, or_false] at hnc
        rcases hnc with rfl | rfl | rfl
        · exact Represents.file _
        · exact Represents.dir _ _ _ (by decide) (by intro nc h; simp at h)
        · apply Represents.dir
          · decide
          · intro nc hnc
            simp only [List.mem_cons, List.not_mem_nil, or_false] at hnc
            rcases hnc with rfl | rfl
            · exact Represents.file _
            · exact Represents.file _

theorem walk_emits_lexical_preorder_witness :
    (runP keepAll 11 (New exFS ".")).map Visit.path =
      [".", "a", "b", "c", "d", "d/x", "d/y", "d/z", "d/z/u", "d/z/v"] := by
  have h := walk_emits_lexical_preorder exFS "." exTree ⟨".", true⟩ exRepresents
    (by decide) (by decide) (by decide) (by decide) 11 (by decide)
  rw [h]
  decide

/-- C8: `New` is total (it always returns a walker), and a failing root
stat is deferred: the first `Next` still returns `true`, `Path` reports the
root, and `Err` reports the stat error on that first visit. -/
theorem new_defers_root_stat_error (fsys : FS) (root : String)
    (info : Option DirEntry) (e : String)
    (hstat : fsys.stat root = (info, some e)) :
    (Walker.Next (New fsys root)).1 = true ∧
    Walker.Path (Walker.Next (New fsys root)).2 = root ∧
    Walker.Err (Walker.Next (New fsys root)).2 = some e := by
  have h1 : New fsys root =
      ⟨fsys, ⟨"", none, some errUsage, 0, 0⟩, [⟨root, info, some e, 0, 0⟩], false⟩ := by
    simp [New, hstat]
  rw [Walker.Next, h1, expandPhase_flagFalse (expandFlag_of_notDescend rfl)]
  simp [popPhase, Walker.Path, Walker.Err]

/-- A filesystem whose root stat always fails. -/
def badStatFS : FS where
  stat := fun _ => (none, some "stat failure")
  readDir := fun _ => ([⟨"x", false⟩], none)

theorem new_defers_root_stat_error_witness :
    (Walker.Next (New badStatFS ".")).1 = true ∧
    Walker.Path (Walker.Next (New badStatFS ".")).2 = "." ∧
    Walker.Err (Walker.Next (New badStatFS ".")).2 = some "stat failure" :=
  new_defers_root_stat_error badStatFS "." none "stat failure" rfl

/-- Terminal state: with an empty stack and a false expansion guard, every
further call emits nothing and reads nothing. -/
theorem run_dead (pol : Policy) (w : Walker) (hstack : w.stack = [])
    (hflag : expandFlag w = false) :
    ∀ fuel, runP pol fuel w = [] ∧ readsP pol fuel w = [] := by
  intro fuel
  cases fuel with
  | zero => exact ⟨rfl, rfl⟩
  | succ n =>
    have hnext : Walker.Next w = (false, { w with descend := false }) := by
      rw [Walker.Next, expandPhase_flagFalse hflag]
      simp [popPhase, hstack]
    rw [runP_succ, readsP_succ, hnext, nextReads_flagFalse hflag]
    exact ⟨rfl, rfl⟩

/-- C10: when the root stat fails, the traversal emits exactly one visit
(the root, carrying the stat error), the second `Next` call returns
`false`, and no `ReadDir` is ever issued, whatever the consumer policy. -/
theorem root_stat_error_single_visit (pol : Policy) (fsys : FS) (root : String)
    (info : Option DirEntry) (e : String)
    (hstat : fsys.stat root = (info, some e)) :
    (∀ fuel, 1 ≤ fuel →
      (runP pol fuel (New fsys root)).map obs = [(root, some e)]) ∧
    (Walker.Next (Walker.Next (New fsys root)).2).1 = false ∧
    (∀ fuel, readsP pol fuel (New fsys root) = []) := by
  have h1 : New fsys root =
      ⟨fsys, ⟨"", none, some errUsage, 0, 0⟩, [⟨root, info, some e, 0, 0⟩], false⟩ := by
    simp [New, hstat]
  have hflag0 : expandFlag (New fsys root) = false := by
    rw [h1]; exact expandFlag_of_notDescend rfl
  have hnext1 : Walker.Next (New fsys root) =
      (true, ⟨fsys, ⟨root, info, some e, 0, 0⟩, [], true⟩) := by
    rw [Walker.Next, expandPhase_flagFalse hflag0, h1]
    simp [popPhase]
  have hdead : ∀ w₃ : Walker, w₃.stack = [] → expandFlag w₃ = false →
      ∀ fuel, runP pol fuel w₃ = [] ∧ readsP pol fuel w₃ = [] :=
    fun w₃ hs hf => run_dead pol w₃ hs hf
  have hcs : ∀ pr : Prune,
      (applyPrune (⟨fsys, ⟨root, info, some e, 0, 0⟩, [], true⟩ : Walker) pr).stack = [] ∧
      expandFlag (applyPrune (⟨fsys, ⟨root, info, some e, 0, 0⟩, [], true⟩ : Walker) pr) = false := by
    intro pr
    cases pr with
    | keep => exact ⟨rfl, expandFlag_of_err rfl⟩
    | skipDir =>
      refine ⟨by simp [applyPrune, Walker.SkipDir, stackTrunc], ?_⟩
      exact expandFlag_of_notDescend rfl
    | skipParent =>
      refine ⟨by simp [applyPrune, Walker.SkipParent, stackTrunc], ?_⟩
      exact expandFlag_of_notDescend rfl
  refine ⟨?_, ?_, ?_⟩
  · intro fuel hfuel
    obtain ⟨fuel', rfl⟩ : ∃ f', fuel = f' + 1 := ⟨fuel - 1, by omega⟩
    rw [runP_succ, hnext1]
    have hc := hcs (pol root info (some e))
    have hrun := (hdead _ hc.1 hc.2 fuel').1
    simp only [consume, Walker.Path, Walker.Entry, Walker.Err]
    rw [hrun]
    simp [obs]
  · rw [hnext1]
    have : expandFlag (⟨fsys, ⟨root, info, some e, 0, 0⟩, [], true⟩ : Walker) = false :=
      expandFlag_of_err rfl
    rw [Walker.Next, expandPhase_flagFalse this]
    simp [popPhase]
  · intro fuel
    cases fuel with
    | zero => rfl
    | succ fuel' =>
      rw [readsP_succ, hnext1, nextReads_flagFalse hflag0]
      have hc := hcs (pol root info (some e))
      have hrun := (hdead _ hc.1 hc.2 fuel').2
      simp only [consume, Walker.Path, Walker.Entry, Walker.Err]
      rw [hrun]
      rfl

theorem root_stat_error_single_visit_witness :
    (runP keepAll 5 (New badStatFS ".")).map obs = [(".", some "stat failure")] ∧
    (Walker.Next (Walker.Next (New badStatFS ".")).2).1 = false ∧
    readsP keepAll 7 (New badStatFS ".") = [] := by
  have h := root_stat_error_single_visit keepAll badStatFS "." none "stat failure" rfl
  exact ⟨h.1 5 (by omega), h.2.1, h.2.2 7⟩

theorem next_false_state {w : Walker} (h : (Walker.Next w).1 = false) :
    (Walker.Next w).2.stack = [] ∧ (Walker.Next w).2.descend = false := by
  rw [Walker.Next] at h ⊢
  rcases hs : (expandPhase w).stack with _ | ⟨v, s⟩
  · simp [popPhase, hs]
  · rw [popPhase, hs] at h
    simp at h

theorem dead_next (w : Walker) (h1 : w.stack = []) (h2 : w.descend = false) :
    (Walker.Next w).1 = false ∧ (Walker.Next w).2.stack = [] ∧
    (Walker.Next w).2.descend = false ∧ nextReads w = [] := by
  have hflag := expandFlag_of_notDescend h2
  rw [Walker.Next, expandPhase_flagFalse hflag, nextReads_flagFalse hflag]
  simp [popPhase, h1]

theorem dead_iter (w : Walker) (h1 : w.stack = []) (h2 : w.descend = false) :
    ∀ n, (nextIter n w).stack = [] ∧ (nextIter n w).descend = false := by
  intro n
  induction n generalizing w with
  | zero => exact ⟨h1, h2⟩
  | succ n ih =>
    have hd := dead_next w h1 h2
    exact ih (Walker.Next w).2 hd.2.1 hd.2.2.1

/-- C5: once `Next` has returned `false`, every later call returns `false`
and performs no `ReadDir`, even after the walker's filesystem is replaced
by an arbitrary different one (the terminal state is sticky and never
re-evaluated; `Stat` appears only in `New`, so it is never re-issued
either). -/
theorem next_false_sticky (w : Walker) (h : (Walker.Next w).1 = false)
    (fsys' : FS) (n : Nat) :
    (Walker.Next (nextIter n { (Walker.Next w).2 with fsys := fsys' })).1 = false ∧
    nextReads (nextIter n { (Walker.Next w).2 with fsys := fsys' }) = [] := by
  obtain ⟨hs, hd⟩ := next_false_state h
  have hs' : ({ (Walker.Next w).2 with fsys := fsys' } : Walker).stack = [] := hs
  have hd' : ({ (Walker.Next w).2 with fsys := fsys' } : Walker).descend = false := hd
  obtain ⟨hs2, hd2⟩ := dead_iter _ hs' hd' n
  have hfin := dead_next _ hs2 hd2
  exact ⟨hfin.1, hfin.2.2.2⟩

/-- A filesystem whose root is a plain file. -/
def fileRootFS : FS where
  stat := fun _ => (some ⟨".", false⟩, none)
  readDir := fun _ => ([], some "unused")

/-- The same filesystem after "gaining" entries: the root became a
directory with a child. -/
def grownFS : FS where
  stat := fun _ => (some ⟨".", true⟩, none)
  readDir := fun _ => ([⟨"new", false⟩], none)

theorem next_false_sticky_witness :
    (Walker.Next (Walker.Next (New fileRootFS ".")).2).1 = false ∧
    ((Walker.Next (nextIter 3
        { (Walker.Next (Walker.Next (New fileRootFS ".")).2).2 with fsys := grownFS })).1 = false ∧
      nextReads (nextIter 3
        { (Walker.Next (Walker.Next (New fileRootFS ".")).2).2 with fsys := grownFS }) = []) :=
  ⟨by decide, next_false_sticky (Walker.Next (New fileRootFS ".")).2 (by decide) grownFS 3⟩

/-- The marks each pushed child receives during one expansion (`n` is the
stack length at the start of the expansion, `b` the stack length just
before the pushes): working through the reversed entry list, the child
pushed when the stack holds `b + k` visits gets `skipDir = b + k`. -/
def childSpec (parent : String) (n b : Nat) : List DirEntry → List Visit
  | [] => []
  | e :: rest =>
    ⟨pathJoin parent e.name, some e, none, b + rest.length, n⟩ ::
      childSpec parent n b rest

theorem childSpec_append_single (parent : String) (n b : Nat)
    (l : List DirEntry) (a : DirEntry) :
    childSpec parent n b (l ++ [a]) =
      childSpec parent n (b + 1) l ++
        [⟨pathJoin parent a.name, some a, none, b, n⟩] := by
  induction l with
  | nil => simp [childSpec]
  | cons e rest ih =>
    simp only [List.cons_append, childSpec, ih]
    congr 2
    simp
    omega

theorem pushChildren_childSpec (parent : String) (n : Nat) :
    ∀ (d : List DirEntry) (s : List Visit),
      pushChildren parent n d.reverse s = childSpec parent n s.length d ++ s := by
  intro d
  induction d using List.reverseRecOn with
  | nil => intro s; simp [pushChildren, childSpec]
  | append_singleton l a ih =>
    intro s
    rw [List.reverse_append]
    simp only [List.reverse_cons, List.reverse_nil, List.nil_append,
      List.singleton_append]
    show pushChildren parent n l.reverse
        (⟨pathJoin parent a.name, some a, none, s.length, n⟩ :: s) = _
    rw [ih, childSpec_append_single]
    simp [List.append_assoc]

theorem childSpec_skipPar (parent : String) (n b : Nat) :
    ∀ d : List DirEntry,
      (childSpec parent n b d).map Visit.skipPar = List.replicate d.length n := by
  intro d
  induction d with
  | nil => simp [childSpec]
  | cons e rest ih => simp [childSpec, ih, List.replicate_succ]

theorem childSpec_skipDir (parent : String) (n b : Nat) :
    ∀ d : List DirEntry,
      (childSpec parent n b d).map Visit.skipDir =
        (List.range d.length).reverse.map (b + ·) := by
  intro d
  induction d with
  | nil => simp [childSpec]
  | cons e rest ih =>
    simp [childSpec, ih, List.range_succ]

/-- C7 (amended): during one expansion the push loop gives every child the
same `skipPar` mark `n` (the stack length at the start of the expansion),
but the `skipDir` marks are the successive stack lengths just before each
individual push: in listing order the marks count down from
`s.length + m - 1` to `s.length` (for `m` children over a stack of length
`s.length`), so children of one expansion carry pairwise distinct,
consecutive `skipDir` marks, not one shared mark. -/
theorem expansion_marks (parent : String) (n : Nat) (d : List DirEntry)
    (s : List Visit) :
    pushChildren parent n d.reverse s = childSpec parent n s.length d ++ s ∧
    (childSpec parent n s.length d).map Visit.skipPar = List.replicate d.length n ∧
    (childSpec parent n s.length d).map Visit.skipDir =
      (List.range d.length).reverse.map (s.length + ·) :=
  ⟨pushChildren_childSpec parent n d s, childSpec_skipPar parent n s.length d,
    childSpec_skipDir parent n s.length d⟩

/-- A filesystem whose root directory holds two plain files `x`, `y`. -/
def twoFileFS : FS where
  stat := fun p => if p = "." then (some ⟨".", true⟩, none) else (none, some "nostat")
  readDir := fun p =>
    if p = "." then ([⟨"x", false⟩, ⟨"y", false⟩], none) else ([], some "noread")

/-- C7 counterexample: expanding the root `"."` of `twoFileFS` (stack
length 0 before the pushes) pushes the two children with `skipDir` marks
`1` and `0` — `len(w.stack)` is re-evaluated at every push — so the child
visit for `x` does not carry the pre-expansion stack length `0`, and the
children of one expansion do not share one `skipDir` mark. -/
theorem expansion_marks_counterexample :
    (Walker.Next (Walker.Next (New twoFileFS ".")).2).2.cur.skipDir = 1 ∧
    (Walker.Next (Walker.Next (New twoFileFS ".")).2).2.stack.map Visit.skipDir = [0] ∧
    ¬ (Walker.Next (Walker.Next (New twoFileFS ".")).2).2.cur.skipDir = 0 := by
  decide

/-- Walker states reachable through the public API: a fresh walker, a
`Next` step, or one of the pruning calls at any time. -/
inductive Reachable : Walker → Prop
  | base (fsys : FS) (root : String) : Reachable (New fsys root)
  | next (w : Walker) : Reachable w → Reachable (Walker.Next w).2
  | skipDir (w : Walker) : Reachable w → Reachable w.SkipDir
  | skipParent (w : Walker) : Reachable w → Reachable w.SkipParent

/-- Mark invariant of the pending stack, top first: each pending visit's
marks satisfy `skipPar ≤ skipDir ≤` (number of entries below it). -/
def StackInv : List Visit → Prop
  | [] => True
  | v :: s => (v.skipPar ≤ v.skipDir ∧ v.skipDir ≤ s.length) ∧ StackInv s

/-- Mark invariant of a whole walker: the stack invariant, `skipPar ≤
skipDir` on the current visit, and — while the current visit is still
armed for descent, i.e. no pruning has happened on it yet — both its marks
are at most the pending-stack length. -/
def WalkerInv (w : Walker) : Prop :=
  StackInv w.stack ∧ w.cur.skipPar ≤ w.cur.skipDir ∧
    (w.descend = true → w.cur.skipDir ≤ w.stack.length)

theorem StackInv_drop : ∀ (s : List Visit) (m : Nat), StackInv s → StackInv (s.drop m)
  | _, 0, h => h
  | [], _ + 1, _ => trivial
  | _ :: s, m + 1, h => StackInv_drop s m h.2

theorem pushChildren_length (parent : String) (n : Nat) :
    ∀ (d : List DirEntry) (s : List Visit),
      (pushChildren parent n d s).length = d.length + s.length := by
  intro d
  induction d with
  | nil => intro s; simp [pushChildren]
  | cons e rest ih =>
    intro s
    rw [pushChildren, ih]
    simp
    omega

theorem StackInv_pushChildren (parent : String) (n : Nat) :
    ∀ (d : List DirEntry) (s : List Visit), n ≤ s.length → StackInv s →
      StackInv (pushChildren parent n d s)
  | [], _, _, h => h
  | e :: rest, s, hn, h =>
    StackInv_pushChildren parent n rest
      (⟨pathJoin parent e.name, some e, none, s.length, n⟩ :: s)
      (by simp; omega) ⟨⟨hn, le_refl _⟩, h⟩

theorem WalkerInv_expand (w : Walker) (h : WalkerInv w) :
    WalkerInv (expandPhase w) := by
  obtain ⟨hstk, hcur, hdes⟩ := h
  cases hflag : expandFlag w with
  | false => rw [expandPhase_flagFalse hflag]; exact ⟨hstk, hcur, hdes⟩
  | true =>
    have hdtrue : w.descend = true := by
      have hf := hflag
      simp only [expandFlag, Bool.and_eq_true] at hf
      exact hf.1.1
    have hsd : w.cur.skipDir ≤ w.stack.length := hdes hdtrue
    rcases hrd : w.fsys.readDir w.cur.path with ⟨dents, derr⟩
    cases derr with
    | none =>
      have hexp : expandPhase w =
          { w with stack :=
              pushChildren w.cur.path w.stack.length dents.reverse w.stack } := by
        simp [expandPhase, hflag, hrd]
      rw [hexp]
      refine ⟨StackInv_pushChildren _ _ _ _ (le_refl _) hstk, hcur, ?_⟩
      intro _
      show w.cur.skipDir ≤ (pushChildren w.cur.path w.stack.length dents.reverse w.stack).length
      rw [pushChildren_length]
      omega
    | some e =>
      have hexp : expandPhase w =
          { w with
            cur := ({ w.cur with err := some e } : Visit),
            stack := ({ w.cur with err := some e } : Visit) ::
              pushChildren w.cur.path w.stack.length dents.reverse w.stack } := by
        simp [expandPhase, hflag, hrd]
      rw [hexp]
      have hlen : w.cur.skipDir ≤
          (pushChildren w.cur.path w.stack.length dents.reverse w.stack).length := by
        rw [pushChildren_length]
        omega
      refine ⟨⟨⟨hcur, hlen⟩, StackInv_pushChildren _ _ _ _ (le_refl _) hstk⟩, hcur, ?_⟩
      intro _
      show w.cur.skipDir ≤ (({ w.cur with err := some e } : Visit) ::
        pushChildren w.cur.path w.stack.length dents.reverse w.stack).length
      simp only [List.length_cons]
      omega

theorem WalkerInv_next (w : Walker) (h : WalkerInv w) :
    WalkerInv (Walker.Next w).2 := by
  have h1 := WalkerInv_expand w h
  obtain ⟨hstk, hcur, _⟩ := h1
  rw [Walker.Next]
  rcases hs : (expandPhase w).stack with _ | ⟨v, s⟩
  · rw [popPhase, hs]
    refine ⟨by rw [hs] at hstk; exact hstk, hcur, ?_⟩
    intro hfalse
    simp at hfalse
  · rw [popPhase, hs]
    rw [hs] at hstk
    exact ⟨hstk.2, hstk.1.1, fun _ => hstk.1.2⟩

theorem WalkerInv_skipDir (w : Walker) (h : WalkerInv w) :
    WalkerInv w.SkipDir := by
  refine ⟨StackInv_drop _ _ h.1, h.2.1, ?_⟩
  intro hfalse
  simp [Walker.SkipDir] at hfalse

theorem WalkerInv_skipParent (w : Walker) (h : WalkerInv w) :
    WalkerInv w.SkipParent := by
  refine ⟨StackInv_drop _ _ h.1, h.2.1, ?_⟩
  intro hfalse
  simp [Walker.SkipParent] at hfalse

theorem New_inv (fsys : FS) (root : String) : WalkerInv (New fsys root) := by
  refine ⟨⟨⟨le_refl _, by simp⟩, trivial⟩, le_refl _, ?_⟩
  intro hfalse
  simp [New] at hfalse

/-- C9: in every state reachable through the public API, every pending
visit (and the current one) satisfies `skipPar ≤ skipDir`, each pending
visit's marks are bounded by the stack below it, and — whenever the
current visit is still armed for descent, in particular right after any
successful `Next` and before any pruning on that visit — its marks are at
most the pending-stack length, so the truncations performed by `SkipDir`
and `SkipParent` never point past the stack bounds. -/
theorem reachable_mark_invariant (w : Walker) (h : Reachable w) : WalkerInv w := by
  induction h with
  | base fsys root => exact New_inv fsys root
  | next w' _ ih => exact WalkerInv_next w' ih
  | skipDir w' _ ih => exact WalkerInv_skipDir w' ih
  | skipParent w' _ ih => exact WalkerInv_skipParent w' ih

theorem reachable_mark_invariant_witness :
    WalkerInv (Walker.Next (Walker.Next (New twoFileFS ".")).2).2 :=
  reachable_mark_invariant _
    (Reachable.next _ (Reachable.next _ (Reachable.base twoFileFS ".")))


/-- C2: a directory whose listing fails with partial entries is visited
exactly twice — first with no error, then with the listing error — the
error visit sits between the pre-visit and the (possibly partial)
children, and the children are still walked afterward in listing order. -/
theorem error_dir_double_visit (fsys : FS) (root : String) (t : FTree)
    (ent : DirEntry) (d e : String) (cs : List (String × FTree))
    (hrep : Represents fsys root t) (hstat : fsys.stat root = (some ent, none))
    (hdir : ent.isDir = isDirB t)
    (hmem : (d, FTree.dir (some e) cs) ∈ nodes root t)
    (hnodup : ((nodes root t).map Prod.fst).Nodup)
    (fuel : Nat) (hfuel : tsize t + 1 ≤ fuel) :
    (∃ A B, (runP keepAll fuel (New fsys root)).map obs =
        A ++ ((d, none) :: (d, some e) :: (dlist keepAll d cs).vs) ++ B) ∧
    ((runP keepAll fuel (New fsys root)).map obs).filter (fun x => x.1 = d) =
      [(d, none), (d, some e)] := by
  have hlen := dwalk_len_le keepAll (some ent) root t
  have hrd := run_denotation keepAll fsys root t ent hrep hstat hdir fuel (by omega)
  obtain ⟨_, A, B, RA, RB, hk1, hk2, _, _, ha1, ha2, _, _⟩ :=
    prune_decompT keepAll d (FTree.dir (some e) cs) (some ⟨d, true⟩)
      (fun _ _ _ _ => rfl) (fun _ _ _ _ => rfl) (dwalk_keepAll_ab _ _ _)
      t root (some ent) hmem hnodup
  have hkd : (dwalk keepAll (some (⟨d, true⟩ : DirEntry)) d (FTree.dir (some e) cs)).vs =
      (d, none) :: (d, some e) :: (dlist keepAll d cs).vs := by
    simp [dwalk, keepAll]
  have hrun : (runP keepAll fuel (New fsys root)).map obs =
      A ++ ((d, none) :: (d, some e) :: (dlist keepAll d cs).vs) ++ B := by
    rw [hrd.1, hk1, hkd]
  have hdin : d ∈ (nodes d (FTree.dir (some e) cs)).map Prod.fst := by simp
  have hnodup' := nodes_nodup_sub hmem hnodup
  have hdnot : d ∉ (nodesList d cs).map Prod.fst := by
    rw [nodes_dir, List.map_cons, List.nodup_cons] at hnodup'
    exact hnodup'.1
  have hfA : A.filter (fun x => x.1 = d) = [] := by
    rw [List.filter_eq_nil_iff]
    intro x hx
    simp only [decide_eq_true_eq]
    intro hxd
    exact ha1 x hx (hxd ▸ hdin)
  have hfB : B.filter (fun x => x.1 = d) = [] := by
    rw [List.filter_eq_nil_iff]
    intro x hx
    simp only [decide_eq_true_eq]
    intro hxd
    exact ha2 x hx (hxd ▸ hdin)
  have hfC : (dlist keepAll d cs).vs.filter (fun x => x.1 = d) = [] := by
    rw [List.filter_eq_nil_iff]
    intro x hx
    simp only [decide_eq_true_eq]
    intro hxd
    exact hdnot (hxd ▸ (dlist_paths_sub keepAll d cs).1 x hx)
  refine ⟨⟨A, B, hrun⟩, ?_⟩
  rw [hrun]
  simp [List.filter_append, hfA, hfB, hfC]

/-- The partial-listing tree of the repository's `TestPartialReadDir`
test: `a` is a directory whose listing fails with partial entries `x`,
`y`; `b` is a plain file. -/
def errTree : FTree :=
  FTree.dir none
    [("a", FTree.dir (some "incomplete readdir") [("x", FTree.file), ("y", FTree.file)]),
     ("b", FTree.file)]

/-- A filesystem representing `errTree` at root `"."`. -/
def errFS : FS where
  stat := fun p => if p = "." then (some ⟨".", true⟩, none) else (none, some "nostat")
  readDir := fun p =>
    if p = "." then ([⟨"a", true⟩, ⟨"b", false⟩], none)
    else if p = "a" then ([⟨"x", false⟩, ⟨"y", false⟩], some "incomplete readdir")
    else ([], some "noread")

theorem errRepresents : Represents errFS "." errTree := by
  apply Represents.dir
  · decide
  · intro nc hnc
    simp only [errTree, List.mem_cons, List.not_mem_nil, or_false] at hnc
    rcases hnc with rfl | rfl
    · apply Represents.dir
      · decide
      · intro nc hnc
        simp only [List.mem_cons, List.not_mem_nil, or_false] at hnc
        rcases hnc with rfl | rfl
        · exact Represents.file _
        · exact Represents.file _
    · exact Represents.file _

theorem errTree_a_mem :
    ("a", FTree.dir (some "incomplete readdir") [("x", FTree.file), ("y", FTree.file)]) ∈
      nodes "." errTree := by
  rw [show errTree = FTree.dir none
      [("a", FTree.dir (some "incomplete readdir") [("x", FTree.file), ("y", FTree.file)]),
       ("b", FTree.file)] from rfl, nodes_dir]
  apply List.mem_cons_of_mem
  rw [nodesList_cons]
  apply List.mem_append_left
  rw [show pathJoin "." ("a", FTree.dir (some "incomplete readdir")
      [("x", FTree.file), ("y", FTree.file)]).1 = "a" from by decide, nodes_dir]
  exact List.mem_cons_self _ _

theorem error_dir_double_visit_witness :
    (∃ A B, (runP keepAll 8 (New errFS ".")).map obs =
        A ++ (("a", none) :: ("a", some "incomplete readdir") ::
          (dlist keepAll "a" [("x", FTree.file), ("y", FTree.file)]).vs) ++ B) ∧
    ((runP keepAll 8 (New errFS ".")).map obs).filter (fun x => x.1 = "a") =
      [("a", none), ("a", some "incomplete readdir")] :=
  error_dir_double_visit errFS "." errTree ⟨".", true⟩ "a" "incomplete readdir"
    [("x", FTree.file), ("y", FTree.file)] errRepresents (by decide) (by decide)
    errTree_a_mem (by decide) 8 (by decide)


/-- A consumer that calls `SkipDir` whenever the current path is `d`. -/
def skipDirPol (d : String) : Policy :=
  fun q _ _ => if q = d then Prune.skipDir else Prune.keep

/-- A consumer that calls `SkipDir` when the current path is `d` and the
current visit carries an error (the post-read-error visit). -/
def skipDirErrPol (d : String) : Policy :=
  fun q _ er => if q = d ∧ er ≠ none then Prune.skipDir else Prune.keep

/-- C3: calling `SkipDir` while visiting the directory `d` — on its
pre-read visit (first group) or on its post-read-error visit (last group,
for a directory with a listing error) — suppresses every descendant of
`d`: the pruned run equals the unpruned run with `d`'s whole subtree walk
replaced by just `d`'s own visit(s), the surrounding visits `A`/`B`
(earlier items and remaining siblings) unchanged; no emitted path is a
descendant of `d`; and `d`'s listing is never read after the pruning call
(not at all when pruned on the pre-visit, only the one pre-prune read when
pruned on the error visit). -/
theorem skipdir_prunes_directory (fsys : FS) (root : String) (t : FTree)
    (ent : DirEntry) (d : String) (lerr : Option String)
    (cs : List (String × FTree))
    (hrep : Represents fsys root t) (hstat : fsys.stat root = (some ent, none))
    (hdir : ent.isDir = isDirB t)
    (hmem : (d, FTree.dir lerr cs) ∈ nodes root t)
    (hnodup : ((nodes root t).map Prod.fst).Nodup)
    (fuel : Nat) (hfuel : tsize t + 1 ≤ fuel) :
    ((∃ A B, (runP keepAll fuel (New fsys root)).map obs =
        A ++ (dwalk keepAll (some ⟨d, true⟩) d (FTree.dir lerr cs)).vs ++ B ∧
      (runP (skipDirPol d) fuel (New fsys root)).map obs = A ++ [(d, none)] ++ B) ∧
    (∀ x ∈ (runP (skipDirPol d) fuel (New fsys root)).map obs,
      x.1 ∉ (nodesList d cs).map Prod.fst) ∧
    d ∉ readsP (skipDirPol d) fuel (New fsys root)) ∧
    (∀ e, lerr = some e →
      (∃ A B, (runP keepAll fuel (New fsys root)).map obs =
          A ++ (dwalk keepAll (some ⟨d, true⟩) d (FTree.dir lerr cs)).vs ++ B ∧
        (runP (skipDirErrPol d) fuel (New fsys root)).map obs =
          A ++ [(d, none), (d, some e)] ++ B) ∧
      (∀ x ∈ (runP (skipDirErrPol d) fuel (New fsys root)).map obs,
        x.1 ∉ (nodesList d cs).map Prod.fst) ∧
      (∃ RA RB, readsP (skipDirErrPol d) fuel (New fsys root) = RA ++ [d] ++ RB ∧
        d ∉ RA ∧ d ∉ RB)) := by
  have hlen := dwalk_len_le keepAll (some ent) root t
  have hrdK := run_denotation keepAll fsys root t ent hrep hstat hdir fuel (by omega)
  have hdin : d ∈ (nodes d (FTree.dir lerr cs)).map Prod.fst := by simp
  have hnodup' := nodes_nodup_sub hmem hnodup
  have hdnot : d ∉ (nodesList d cs).map Prod.fst := by
    rw [nodes_dir, List.map_cons, List.nodup_cons] at hnodup'
    exact hnodup'.1
  have hsubdesc : ∀ q, q ∈ (nodesList d cs).map Prod.fst →
      q ∈ (nodes d (FTree.dir lerr cs)).map Prod.fst := by
    intro q hq
    rw [nodes_dir, List.map_cons]
    exact List.mem_cons_of_mem _ hq
  constructor
  · -- pre-read SkipDir
    have hlenA := dwalk_len_le (skipDirPol d) (some ent) root t
    have hrdA := run_denotation (skipDirPol d) fsys root t ent hrep hstat hdir fuel
      (by omega)
    have hπA : dwalk (skipDirPol d) (some (⟨d, true⟩ : DirEntry)) d
        (FTree.dir lerr cs) = ⟨[(d, none)], [], false⟩ := by
      simp [dwalk, skipDirPol]
    obtain ⟨_, A, B, RA, RB, hk1, hk2, hq1, hq2, ha1, ha2, ha3, ha4⟩ :=
      prune_decompT (skipDirPol d) d (FTree.dir lerr cs) (some ⟨d, true⟩)
        (fun _ _ _ _ => rfl)
        (fun q ent' er hq => by
          have hne : q ≠ d := fun h => hq (h ▸ hdin)
          simp [skipDirPol, hne])
        (by rw [hπA]) t root (some ent) hmem hnodup
    refine ⟨⟨A, B, by rw [hrdK.1, hk1], ?_⟩, ?_, ?_⟩
    · rw [hrdA.1, hq1, hπA]
    · intro x hx
      rw [hrdA.1, hq1, hπA] at hx
      simp only [List.mem_append, List.mem_singleton] at hx
      rcases hx with (hx1 | rfl) | hx2
      · exact fun hin => ha1 x hx1 (hsubdesc _ hin)
      · exact hdnot
      · exact fun hin => ha2 x hx2 (hsubdesc _ hin)
    · intro hin
      rw [hrdA.2, hq2, hπA] at hin
      simp only [List.mem_append, List.not_mem_nil] at hin
      rcases hin with (hin1 | hin1) | hin2
      · exact ha3 d hin1 hdin
      · exact hin1
      · exact ha4 d hin2 hdin
  · -- post-read-error SkipDir
    intro e he
    subst he
    have hlenB := dwalk_len_le (skipDirErrPol d) (some ent) root t
    have hrdB := run_denotation (skipDirErrPol d) fsys root t ent hrep hstat hdir fuel
      (by omega)
    have hπB : dwalk (skipDirErrPol d) (some (⟨d, true⟩ : DirEntry)) d
        (FTree.dir (some e) cs) = ⟨[(d, none), (d, some e)], [d], false⟩ := by
      simp [dwalk, skipDirErrPol]
    obtain ⟨_, A, B, RA, RB, hk1, hk2, hq1, hq2, ha1, ha2, ha3, ha4⟩ :=
      prune_decompT (skipDirErrPol d) d (FTree.dir (some e) cs) (some ⟨d, true⟩)
        (fun _ _ _ _ => rfl)
        (fun q ent' er hq => by
          have hne : q ≠ d := fun h => hq (h ▸ hdin)
          simp [skipDirErrPol, hne])
        (by rw [hπB]) t root (some ent) hmem hnodup
    refine ⟨⟨A, B, by rw [hrdK.1, hk1], ?_⟩, ?_, ?_⟩
    · rw [hrdB.1, hq1, hπB]
    · intro x hx
      rw [hrdB.1, hq1, hπB] at hx
      simp only [List.mem_append, List.mem_cons, List.mem_singleton,
        List.not_mem_nil, or_false] at hx
      rcases hx with (hx1 | rfl | rfl) | hx2
      · exact fun hin => ha1 x hx1 (hsubdesc _ hin)
      · exact hdnot
      · exact hdnot
      · exact fun hin => ha2 x hx2 (hsubdesc _ hin)
    · refine ⟨RA, RB, by rw [hrdB.2, hq2, hπB], ?_, ?_⟩
      · exact fun hin => ha3 d hin hdin
      · exact fun hin => ha4 d hin hdin

theorem skipdir_prunes_directory_witness :
    "a" ∉ readsP (skipDirPol "a") 8 (New errFS ".") ∧
    (∃ RA RB, readsP (skipDirErrPol "a") 8 (New errFS ".") = RA ++ ["a"] ++ RB ∧
      "a" ∉ RA ∧ "a" ∉ RB) := by
  have h := skipdir_prunes_directory errFS "." errTree ⟨".", true⟩ "a"
    (some "incomplete readdir") [("x", FTree.file), ("y", FTree.file)] errRepresents
    (by decide) (by decide) errTree_a_mem (by decide) 8 (by decide)
  exact ⟨h.1.2.2, (h.2 "incomplete readdir" rfl).2.2⟩


theorem dlist_ab (pol : Policy) (p : String) :
    ∀ l, (dlist pol p l).ab = false
  | [] => by simp [dlist]
  | nc :: rest => by
    by_cases h : (dwalk pol (some (entryOf nc)) (pathJoin p nc.1) nc.2).ab <;>
      simp [dlist, h]

theorem DOut_eta (o : DOut) (h : o.ab = false) : o = ⟨o.vs, o.rds, false⟩ := by
  cases o
  simp at h
  simp [h]

theorem dlist_keepAll_append (p : String) :
    ∀ l₁ l₂, dlist keepAll p (l₁ ++ l₂) =
      ⟨(dlist keepAll p l₁).vs ++ (dlist keepAll p l₂).vs,
       (dlist keepAll p l₁).rds ++ (dlist keepAll p l₂).rds, false⟩ := by
  intro l₁ l₂
  induction l₁ with
  | nil =>
    simp only [List.nil_append]
    have h := DOut_eta (dlist keepAll p l₂) (dlist_ab keepAll p l₂)
    rw [h]
    simp [dlist]
  | cons nc rest ih =>
    simp only [List.cons_append]
    rw [show dlist keepAll p (nc :: (rest ++ l₂)) =
        ⟨(dwalk keepAll (some (entryOf nc)) (pathJoin p nc.1) nc.2).vs ++
            (dlist keepAll p (rest ++ l₂)).vs,
          (dwalk keepAll (some (entryOf nc)) (pathJoin p nc.1) nc.2).rds ++
            (dlist keepAll p (rest ++ l₂)).rds, false⟩ from by
      simp [dlist, dwalk_keepAll_ab]]
    rw [ih]
    rw [show dlist keepAll p (nc :: rest) =
        ⟨(dwalk keepAll (some (entryOf nc)) (pathJoin p nc.1) nc.2).vs ++
            (dlist keepAll p rest).vs,
          (dwalk keepAll (some (entryOf nc)) (pathJoin p nc.1) nc.2).rds ++
            (dlist keepAll p rest).rds, false⟩ from by
      simp [dlist, dwalk_keepAll_ab]]
    simp [List.append_assoc]

/-- A children list with an aborting entry in the middle: the entries
before it are walked as by `keepAll`, the aborting entry contributes its
own output, and the entries after it are dropped. -/
theorem dlist_prune_mid (pol : Policy) (pp : String) :
    ∀ (pre : List (String × FTree)) (nd : String) (td : FTree)
      (post : List (String × FTree)) (CV : List (String × Option String))
      (CR : List String),
      dwalk pol (some (entryOf (nd, td))) (pathJoin pp nd) td = ⟨CV, CR, true⟩ →
      (∀ q ∈ (nodesList pp pre).map Prod.fst, ∀ ent' er,
        pol q ent' er = Prune.keep) →
      dlist pol pp (pre ++ (nd, td) :: post) =
        ⟨(dlist keepAll pp pre).vs ++ CV, (dlist keepAll pp pre).rds ++ CR, false⟩
  | [], nd, td, post, CV, CR, hchild, _ => by
    simp only [List.nil_append]
    simp [dlist, hchild]
  | nc :: pre', nd, td, post, CV, CR, hchild, hpre => by
    have hcong : dwalk pol (some (entryOf nc)) (pathJoin pp nc.1) nc.2 =
        dwalk keepAll (some (entryOf nc)) (pathJoin pp nc.1) nc.2 := by
      apply dwalk_congr
      intro q hq ent' er
      refine (hpre q ?_ ent' er).trans rfl
      rw [nodesList_cons, List.map_append]
      exact List.mem_append_left _ hq
    have hih := dlist_prune_mid pol pp pre' nd td post CV CR hchild
      (fun q hq ent' er => hpre q (by
        rw [nodesList_cons, List.map_append]
        exact List.mem_append_right _ hq) ent' er)
    simp only [List.cons_append]
    rw [show dlist pol pp (nc :: (pre' ++ (nd, td) :: post)) =
        ⟨(dwalk pol (some (entryOf nc)) (pathJoin pp nc.1) nc.2).vs ++
            (dlist pol pp (pre' ++ (nd, td) :: post)).vs,
          (dwalk pol (some (entryOf nc)) (pathJoin pp nc.1) nc.2).rds ++
            (dlist pol pp (pre' ++ (nd, td) :: post)).rds, false⟩ from by
      simp [dlist, hcong, dwalk_keepAll_ab]]
    rw [hih, hcong]
    rw [show dlist keepAll pp (nc :: pre') =
        ⟨(dwalk keepAll (some (entryOf nc)) (pathJoin pp nc.1) nc.2).vs ++
            (dlist keepAll pp pre').vs,
          (dwalk keepAll (some (entryOf nc)) (pathJoin pp nc.1) nc.2).rds ++
            (dlist keepAll pp pre').rds, false⟩ from by
      simp [dlist, dwalk_keepAll_ab]]
    simp [List.append_assoc]

theorem nodesList_append (p : String) :
    ∀ l₁ l₂, nodesList p (l₁ ++ l₂) = nodesList p l₁ ++ nodesList p l₂ := by
  intro l₁ l₂
  induction l₁ with
  | nil => simp
  | cons nc rest ih => simp [ih]


/-- A consumer that calls `SkipParent` whenever the current path is `d`. -/
def skipParPol (d : String) : Policy :=
  fun q _ _ => if q = d then Prune.skipParent else Prune.keep

/-- A consumer that calls `SkipParent` when the current path is `d` and
the current visit carries an error. -/
def skipParErrPol (d : String) : Policy :=
  fun q _ er => if q = d ∧ er ≠ none then Prune.skipParent else Prune.keep

theorem dwalk_skipParent_self (pol : Policy) (ent : Option DirEntry)
    (d : String) (td : FTree) (h : pol d ent none = Prune.skipParent) :
    dwalk pol ent d td = ⟨[(d, none)], [], true⟩ := by
  cases td <;> simp [dwalk, h]

theorem dwalk_skipParent_err (pol : Policy) (ent : Option DirEntry)
    (d e : String) (csd : List (String × FTree))
    (h0 : pol d ent none = Prune.keep)
    (he : pol d ent (some e) = Prune.skipParent) :
    dwalk pol ent d (FTree.dir (some e) csd) =
      ⟨[(d, none), (d, some e)], [d], true⟩ := by
  simp [dwalk, h0, he]

/-- The error re-visit a directory contributes when its listing fails. -/
def errVisit (pp : String) : Option String → List (String × Option String)
  | none => []
  | some e => [(pp, some e)]

/-- C4: calling `SkipParent` while visiting the item at `pathJoin pp nd`
(a child of the directory `pp`, with earlier siblings `pre` and later
siblings `post`) suppresses, besides the item's own descendants, all of
its not-yet-visited later siblings: the pruned run keeps the surrounding
context `A`/`B` (in particular every ancestor's siblings) and the walks of
the earlier siblings, but replaces the item's subtree walk and the whole
`post` sibling walk by just the item's own visit(s).  First group: pruning
on the item's first visit; last group: pruning on the post-read-error
visit of a directory item whose listing fails. -/
theorem skipparent_prunes_later_siblings (fsys : FS) (root : String) (t : FTree)
    (ent : DirEntry) (pp : String) (lerrp : Option String)
    (pre : List (String × FTree)) (nd : String) (td : FTree)
    (post : List (String × FTree))
    (hrep : Represents fsys root t) (hstat : fsys.stat root = (some ent, none))
    (hdir : ent.isDir = isDirB t)
    (hmem : (pp, FTree.dir lerrp (pre ++ (nd, td) :: post)) ∈ nodes root t)
    (hnodup : ((nodes root t).map Prod.fst).Nodup)
    (fuel : Nat) (hfuel : tsize t + 1 ≤ fuel) :
    (∃ A B,
      (runP keepAll fuel (New fsys root)).map obs =
        A ++ ((pp, none) :: (errVisit pp lerrp ++ (dlist keepAll pp pre).vs ++
          (dwalk keepAll (some (entryOf (nd, td))) (pathJoin pp nd) td).vs ++
          (dlist keepAll pp post).vs)) ++ B ∧
      (runP (skipParPol (pathJoin pp nd)) fuel (New fsys root)).map obs =
        A ++ ((pp, none) :: (errVisit pp lerrp ++ (dlist keepAll pp pre).vs ++
          [(pathJoin pp nd, none)])) ++ B) ∧
    (∀ e csd, td = FTree.dir (some e) csd →
      ∃ A B,
        (runP keepAll fuel (New fsys root)).map obs =
          A ++ ((pp, none) :: (errVisit pp lerrp ++ (dlist keepAll pp pre).vs ++
            (dwalk keepAll (some (entryOf (nd, td))) (pathJoin pp nd) td).vs ++
            (dlist keepAll pp post).vs)) ++ B ∧
        (runP (skipParErrPol (pathJoin pp nd)) fuel (New fsys root)).map obs =
          A ++ ((pp, none) :: (errVisit pp lerrp ++ (dlist keepAll pp pre).vs ++
            [(pathJoin pp nd, none), (pathJoin pp nd, some e)])) ++ B) := by
  have hlen := dwalk_len_le keepAll (some ent) root t
  have hrdK := run_denotation keepAll fsys root t ent hrep hstat hdir fuel (by omega)
  have hdmem : (pathJoin pp nd, td) ∈
      nodes pp (FTree.dir lerrp (pre ++ (nd, td) :: post)) := by
    rw [nodes_dir]
    apply List.mem_cons_of_mem
    rw [nodesList_append, nodesList_cons]
    apply List.mem_append_right
    apply List.mem_append_left
    exact nodes_self _ _
  have hdinP : pathJoin pp nd ∈
      (nodes pp (FTree.dir lerrp (pre ++ (nd, td) :: post))).map Prod.fst :=
    List.mem_map_of_mem Prod.fst hdmem
  have hnodupP := nodes_nodup_sub hmem hnodup
  have hpctail : pathJoin pp nd ∈
      (nodesList pp (pre ++ (nd, td) :: post)).map Prod.fst := by
    rw [nodesList_append, nodesList_cons]
    simp only [List.map_append, List.mem_append]
    exact Or.inr (Or.inl (List.mem_map_of_mem Prod.fst (nodes_self _ _)))
  have hppne : pp ≠ pathJoin pp nd := by
    rw [nodes_dir, List.map_cons, List.nodup_cons] at hnodupP
    intro h
    rw [← h] at hpctail
    exact hnodupP.1 hpctail
  have htailnodup : ((nodesList pp (pre ++ (nd, td) :: post)).map Prod.fst).Nodup := by
    rw [nodes_dir, List.map_cons, List.nodup_cons] at hnodupP
    exact hnodupP.2
  have hdpre : pathJoin pp nd ∉ (nodesList pp pre).map Prod.fst := by
    rw [nodesList_append, List.map_append, List.nodup_append] at htailnodup
    intro hin
    apply htailnodup.2.2 hin
    rw [nodesList_cons, List.map_append]
    apply List.mem_append_left
    exact List.mem_map_of_mem Prod.fst (nodes_self _ _)
  have hkP : (dwalk keepAll (some (⟨pp, true⟩ : DirEntry)) pp
      (FTree.dir lerrp (pre ++ (nd, td) :: post))).vs =
      (pp, none) :: (errVisit pp lerrp ++ (dlist keepAll pp pre).vs ++
        (dwalk keepAll (some (entryOf (nd, td))) (pathJoin pp nd) td).vs ++
        (dlist keepAll pp post).vs) := by
    have hmid : (dlist keepAll pp (pre ++ (nd, td) :: post)).vs =
        (dlist keepAll pp pre).vs ++
          ((dwalk keepAll (some (entryOf (nd, td))) (pathJoin pp nd) td).vs ++
            (dlist keepAll pp post).vs) := by
      rw [dlist_keepAll_append]
      rw [show dlist keepAll pp ((nd, td) :: post) =
          ⟨(dwalk keepAll (some (entryOf (nd, td))) (pathJoin pp nd) td).vs ++
              (dlist keepAll pp post).vs,
            (dwalk keepAll (some (entryOf (nd, td))) (pathJoin pp nd) td).rds ++
              (dlist keepAll pp post).rds, false⟩ from by
        simp [dlist, dwalk_keepAll_ab]]
    cases lerrp with
    | none => simp [dwalk, keepAll, errVisit, hmid, List.append_assoc]
    | some e' => simp [dwalk, keepAll, errVisit, hmid, List.append_assoc]
  constructor
  · -- SkipParent on the item's first visit
    have hlenA := dwalk_len_le (skipParPol (pathJoin pp nd)) (some ent) root t
    have hrdA := run_denotation (skipParPol (pathJoin pp nd)) fsys root t ent hrep
      hstat hdir fuel (by omega)
    have hchild : dwalk (skipParPol (pathJoin pp nd)) (some (entryOf (nd, td)))
        (pathJoin pp nd) td = ⟨[(pathJoin pp nd, none)], [], true⟩ :=
      dwalk_skipParent_self _ _ _ _ (by simp [skipParPol])
    have hpreKeep : ∀ q ∈ (nodesList pp pre).map Prod.fst, ∀ ent' er,
        skipParPol (pathJoin pp nd) q ent' er = Prune.keep := by
      intro q hq ent' er
      have : q ≠ pathJoin pp nd := fun h => hdpre (h ▸ hq)
      simp [skipParPol, this]
    have hdl := dlist_prune_mid (skipParPol (pathJoin pp nd)) pp pre nd td post
      [(pathJoin pp nd, none)] [] hchild hpreKeep
    have hπP : dwalk (skipParPol (pathJoin pp nd)) (some (⟨pp, true⟩ : DirEntry)) pp
        (FTree.dir lerrp (pre ++ (nd, td) :: post)) =
        ⟨(pp, none) :: (errVisit pp lerrp ++ (dlist keepAll pp pre).vs ++
            [(pathJoin pp nd, none)]),
          pp :: (dlist keepAll pp pre).rds, false⟩ := by
      have hppk : ∀ er, skipParPol (pathJoin pp nd) pp (some ⟨pp, true⟩) er =
          Prune.keep := by
        intro er
        simp [skipParPol, hppne]
      cases lerrp with
      | none => simp [dwalk, hppk none, hdl, errVisit, List.append_assoc]
      | some e' => simp [dwalk, hppk none, hppk (some e'), hdl, errVisit,
          List.append_assoc]
    obtain ⟨_, A, B, RA, RB, hk1, hk2, hq1, hq2, ha1, ha2, ha3, ha4⟩ :=
      prune_decompT (skipParPol (pathJoin pp nd)) pp
        (FTree.dir lerrp (pre ++ (nd, td) :: post)) (some ⟨pp, true⟩)
        (fun _ _ _ _ => rfl)
        (fun q ent' er hq => by
          have : q ≠ pathJoin pp nd := fun h => hq (h ▸ hdinP)
          simp [skipParPol, this])
        (by rw [hπP]) t root (some ent) hmem hnodup
    refine ⟨A, B, ?_, ?_⟩
    · rw [hrdK.1, hk1, hkP]
    · rw [hrdA.1, hq1, hπP]
  · -- SkipParent on the post-read-error visit
    intro e csd hte
    have hlenB := dwalk_len_le (skipParErrPol (pathJoin pp nd)) (some ent) root t
    have hrdB := run_denotation (skipParErrPol (pathJoin pp nd)) fsys root t ent hrep
      hstat hdir fuel (by omega)
    have hchild : dwalk (skipParErrPol (pathJoin pp nd)) (some (entryOf (nd, td)))
        (pathJoin pp nd) td =
        ⟨[(pathJoin pp nd, none), (pathJoin pp nd, some e)], [pathJoin pp nd], true⟩ := by
      rw [hte]
      exact dwalk_skipParent_err _ _ _ _ _ (by simp [skipParErrPol])
        (by simp [skipParErrPol])
    have hpreKeep : ∀ q ∈ (nodesList pp pre).map Prod.fst, ∀ ent' er,
        skipParErrPol (pathJoin pp nd) q ent' er = Prune.keep := by
      intro q hq ent' er
      have : q ≠ pathJoin pp nd := fun h => hdpre (h ▸ hq)
      simp [skipParErrPol, this]
    have hdl := dlist_prune_mid (skipParErrPol (pathJoin pp nd)) pp pre nd td post
      [(pathJoin pp nd, none), (pathJoin pp nd, some e)] [pathJoin pp nd]
      hchild hpreKeep
    have hπP : dwalk (skipParErrPol (pathJoin pp nd)) (some (⟨pp, true⟩ : DirEntry)) pp
        (FTree.dir lerrp (pre ++ (nd, td) :: post)) =
        ⟨(pp, none) :: (errVisit pp lerrp ++ (dlist keepAll pp pre).vs ++
            [(pathJoin pp nd, none), (pathJoin pp nd, some e)]),
          pp :: ((dlist keepAll pp pre).rds ++ [pathJoin pp nd]), false⟩ := by
      have hppk : ∀ er, skipParErrPol (pathJoin pp nd) pp (some ⟨pp, true⟩) er =
          Prune.keep := by
        intro er
        simp [skipParErrPol, hppne]
      cases lerrp with
      | none => simp [dwalk, hppk none, hdl, errVisit, List.append_assoc]
      | some e' => simp [dwalk, hppk none, hppk (some e'), hdl, errVisit,
          List.append_assoc]
    obtain ⟨_, A, B, RA, RB, hk1, hk2, hq1, hq2, ha1, ha2, ha3, ha4⟩ :=
      prune_decompT (skipParErrPol (pathJoin pp nd)) pp
        (FTree.dir lerrp (pre ++ (nd, td) :: post)) (some ⟨pp, true⟩)
        (fun _ _ _ _ => rfl)
        (fun q ent' er hq => by
          have : q ≠ pathJoin pp nd := fun h => hq (h ▸ hdinP)
          simp [skipParErrPol, this])
        (by rw [hπP]) t root (some ent) hmem hnodup
    refine ⟨A, B, ?_, ?_⟩
    · rw [hrdK.1, hk1, hkP]
    · rw [hrdB.1, hq1, hπP]


theorem skipparent_prunes_later_siblings_witness :
    ∃ A B, (runP (skipParErrPol "a") 8 (New errFS ".")).map obs =
      A ++ [(".", none), ("a", none), ("a", some "incomplete readdir")] ++ B := by
  obtain ⟨A, B, _, h2⟩ := (skipparent_prunes_later_siblings errFS "." errTree
    ⟨".", true⟩ "." none []
    "a" (FTree.dir (some "incomplete readdir") [("x", FTree.file), ("y", FTree.file)])
    [("b", FTree.file)]
    errRepresents (by decide) (by decide) (nodes_self "." errTree) (by decide)
    8 (by decide)).2 "incomplete readdir" [("x", FTree.file), ("y", FTree.file)] rfl
  refine ⟨A, B, ?_⟩
  rw [show pathJoin "." "a" = "a" from by decide] at h2
  rw [h2]
  simp [errVisit, dlist]


/-- The error-free sibling tree `{a/x, a/y, b}`. -/
def sibTree : FTree :=
  FTree.dir none
    [("a", FTree.dir none [("x", FTree.file), ("y", FTree.file)]),
     ("b", FTree.file)]

/-- A filesystem representing `sibTree` at root `"."`. -/
def sibFS : FS where
  stat := fun p => if p = "." then (some ⟨".", true⟩, none) else (none, some "nostat")
  readDir := fun p =>
    if p = "." then ([⟨"a", true⟩, ⟨"b", false⟩], none)
    else if p = "a" then ([⟨"x", false⟩, ⟨"y", false⟩], none)
    else ([], some "noread")

theorem sibRepresents : Represents sibFS "." sibTree := by
  apply Represents.dir
  · decide
  · intro nc hnc
    simp only [sibTree, List.mem_cons, List.not_mem_nil, or_false] at hnc
    rcases hnc with rfl | rfl
    · apply Represents.dir
      · decide
      · intro nc hnc
        simp only [List.mem_cons, List.not_mem_nil, or_false] at hnc
        rcases hnc with rfl | rfl
        · exact Represents.file _
        · exact Represents.file _
    · exact Represents.file _

theorem sib_ax_mem : ("a/x", FTree.file) ∈ nodes "." sibTree := by
  rw [show sibTree = FTree.dir none
      [("a", FTree.dir none [("x", FTree.file), ("y", FTree.file)]),
       ("b", FTree.file)] from rfl, nodes_dir]
  apply List.mem_cons_of_mem
  rw [nodesList_cons]
  apply List.mem_append_left
  rw [show pathJoin "." ("a", FTree.dir none
      [("x", FTree.file), ("y", FTree.file)]).1 = "a" from by decide, nodes_dir]
  apply List.mem_cons_of_mem
  rw [nodesList_cons]
  apply List.mem_append_left
  rw [show pathJoin "a" ("x", FTree.file).1 = "a/x" from by decide, nodes_file]
  exact List.mem_singleton.mpr rfl

/-- C6, counterexample: on the tree `{a/x, a/y, b}` the visit at `a/x` is a
plain file, yet calling `SkipParent` there changes the emitted sequence —
the later sibling `a/y` is suppressed — so `SkipParent` on a plain file is
not a no-op. -/
theorem skip_on_file_noop_counterexample :
    (runP keepAll 8 (New sibFS ".")).map (fun v => v.path) =
      [".", "a", "a/x", "a/y", "b"] ∧
    (runP (skipParPol "a/x") 8 (New sibFS ".")).map
        (fun v => (v.path, visitIsDir v)) =
      [(".", true), ("a", true), ("a/x", false), ("b", false)] ∧
    ¬ (runP (skipParPol "a/x") 8 (New sibFS ".")).map (fun v => v.path) =
        (runP keepAll 8 (New sibFS ".")).map (fun v => v.path) := by
  decide

/-- C6 (amended): calling `SkipParent` while the current visit is a plain
file is not a no-op (it suppresses the file's later siblings; see the
counterexample).  Calling `SkipDir` while the current visit is a plain
file is a no-op: the remaining traversal emits exactly the same visit
sequence, and issues exactly the same listings, as if it had not been
called. -/
theorem skipdir_on_file_noop (fsys : FS) (root : String) (t : FTree)
    (ent : DirEntry) (d : String)
    (hrep : Represents fsys root t) (hstat : fsys.stat root = (some ent, none))
    (hdir : ent.isDir = isDirB t)
    (hmem : (d, FTree.file) ∈ nodes root t)
    (hnodup : ((nodes root t).map Prod.fst).Nodup)
    (fuel : Nat) (hfuel : tsize t + 1 ≤ fuel) :
    (runP (skipDirPol d) fuel (New fsys root)).map obs =
      (runP keepAll fuel (New fsys root)).map obs ∧
    readsP (skipDirPol d) fuel (New fsys root) =
      readsP keepAll fuel (New fsys root) := by
  have hlen := dwalk_len_le keepAll (some ent) root t
  have hlenP := dwalk_len_le (skipDirPol d) (some ent) root t
  have hrdK := run_denotation keepAll fsys root t ent hrep hstat hdir fuel (by omega)
  have hrdP := run_denotation (skipDirPol d) fsys root t ent hrep hstat hdir fuel
    (by omega)
  obtain ⟨_, A, B, RA, RB, hk1, hk2, hq1, hq2, _, _, _, _⟩ :=
    prune_decompT (skipDirPol d) d FTree.file (some (⟨d, false⟩ : DirEntry))
      (fun _ _ _ _ => rfl)
      (fun q ent' er hq => by
        rw [nodes_file] at hq
        simp only [List.map_cons, List.map_nil, List.mem_singleton] at hq
        simp [skipDirPol, hq])
      (by simp [dwalk, skipDirPol])
      t root (some ent) hmem hnodup
  have hmid : dwalk (skipDirPol d) (some (⟨d, false⟩ : DirEntry)) d FTree.file =
      dwalk keepAll (some (⟨d, false⟩ : DirEntry)) d FTree.file := by
    simp [dwalk, skipDirPol, keepAll]
  constructor
  · rw [hrdP.1, hrdK.1, hq1, hk1, hmid]
  · rw [hrdP.2, hrdK.2, hq2, hk2, hmid]

theorem skipdir_on_file_noop_witness :
    (runP (skipDirPol "a/x") 8 (New sibFS ".")).map obs =
      (runP keepAll 8 (New sibFS ".")).map obs :=
  (skipdir_on_file_noop sibFS "." sibTree ⟨".", true⟩ "a/x" sibRepresents
    (by decide) (by decide) sib_ax_mem (by decide) 8 (by decide)).1

end Walk
